import Mathlib

/-!
# Verification of the TComBitStream bit-level I/O engine

A shallow embedding of `src/Lib/TLibCommon/TComBitStream.cpp` (HM reference
codec bitstream reader/writer).  Machine integers are modelled as `Nat` with
explicit `% 2 ^ 32` (for `unsigned int`) and `% 256` (for `unsigned char`)
where truncation occurs in the C++ code.  The byte FIFOs
(`std::vector<uint8_t>`) are modelled as `List Nat` whose elements are kept
below 256 by the well-formedness predicates.  The assertions in the C++
source are modelled by `Option`: a call whose assertion fails returns `none`.

Three accessors (`getNumBitsUntilByteAligned`, `getNumBitsLeft`,
`getNumberOfWrittenBits`) are declared in `TComBitStream.h`, which is not
among the sources; they are modelled from the specification (see their doc
comments).
-/

/-- The output bitstream (BitWriter).  `m_fifo` is the flushed byte buffer
(each entry an octet), `m_held_bits` the left-justified unflushed bits, and
`m_num_held_bits` how many of the top bits of `m_held_bits` are valid. -/
structure TComOutputBitstream where
  m_fifo : List Nat
  m_held_bits : Nat
  m_num_held_bits : Nat
deriving DecidableEq, Repr

/-- The input bitstream (BitReader).  `m_fifo` is the borrowed byte buffer,
`m_fifo_idx` the next unread byte index, `m_held_bits` the byte most recently
loaded (only its low `m_num_held_bits` bits are still unconsumed). -/
structure TComInputBitstream where
  m_fifo : List Nat
  m_fifo_idx : Nat
  m_held_bits : Nat
  m_num_held_bits : Nat
deriving DecidableEq, Repr

namespace TComOutputBitstream

/-- `TComOutputBitstream::TComOutputBitstream()`: fresh writer (the
constructor allocates an empty fifo and calls `clear()`). -/
def construct : TComOutputBitstream := ⟨[], 0, 0⟩

/-- `TComOutputBitstream::clear()`. -/
def clear (_w : TComOutputBitstream) : TComOutputBitstream := ⟨[], 0, 0⟩

/-- `TComOutputBitstream::getByteStreamLength()`. -/
def getByteStreamLength (w : TComOutputBitstream) : Nat := w.m_fifo.length

/-- Modelled from the spec: `getNumberOfWrittenBits` is declared in
`TComBitStream.h`, which is missing from the sources.  Per the spec the total
bit count is `8 * byteStreamLength` plus the unflushed remainder held in
`numHeldBits`. -/
def getNumberOfWrittenBits (w : TComOutputBitstream) : Nat :=
  8 * w.m_fifo.length + w.m_num_held_bits

/-- Modelled from the spec: `getNumBitsUntilByteAligned` is declared in
`TComBitStream.h`, which is missing from the sources.  Per the spec
(§4.1, `writeAlignOne`) it returns the number of bits needed to reach byte
alignment, `0` when already aligned. -/
def getNumBitsUntilByteAligned (w : TComOutputBitstream) : Nat :=
  (8 - w.m_num_held_bits) % 8

/-- `TComOutputBitstream::write(uiBits, uiNumberOfBits)`, lines 90–131.
All `unsigned` arithmetic is mod `2 ^ 32`; `next_held_bits` is an
`unsigned char`, hence the `% 256`; the four `push_back` calls truncate to
`uint8_t`, hence the `% 256` on each pushed byte.  The `switch` on
`num_total_bits >> 3` falls through, so case `k` pushes the top `k` bytes of
`write_bits`, most significant first, and pushes nothing for `k ∉ {1,2,3,4}`.
(The subtraction in `topword` cannot underflow when `m_num_held_bits ≤ 7`,
the only states the code reaches.) -/
def write (w : TComOutputBitstream) (uiBits uiNumberOfBits : Nat) :
    TComOutputBitstream :=
  let num_total_bits := uiNumberOfBits + w.m_num_held_bits
  let next_num_held_bits := num_total_bits % 8
  let next_held_bits := (uiBits <<< (8 - next_num_held_bits)) % 256
  if num_total_bits >>> 3 = 0 then
    { w with
      m_held_bits := w.m_held_bits ||| next_held_bits
      m_num_held_bits := next_num_held_bits }
  else
    let topword := (uiNumberOfBits - next_num_held_bits) &&& 0xFFFFFFF8
    let write_bits :=
      ((w.m_held_bits <<< topword) ||| (uiBits >>> next_num_held_bits)) % 2 ^ 32
    let pushed :=
      match num_total_bits >>> 3 with
      | 4 => [(write_bits >>> 24) % 256, (write_bits >>> 16) % 256,
              (write_bits >>> 8) % 256, write_bits % 256]
      | 3 => [(write_bits >>> 16) % 256, (write_bits >>> 8) % 256,
              write_bits % 256]
      | 2 => [(write_bits >>> 8) % 256, write_bits % 256]
      | 1 => [write_bits % 256]
      | _ => []
    { m_fifo := w.m_fifo ++ pushed
      m_held_bits := next_held_bits
      m_num_held_bits := next_num_held_bits }

/-- `TComOutputBitstream::writeAlignOne()`, lines 133–138. -/
def writeAlignOne (w : TComOutputBitstream) : TComOutputBitstream :=
  let num_bits := getNumBitsUntilByteAligned w
  write w ((1 <<< num_bits) - 1) num_bits

/-- `TComOutputBitstream::writeAlignZero()`, lines 140–147. -/
def writeAlignZero (w : TComOutputBitstream) : TComOutputBitstream :=
  if w.m_num_held_bits = 0 then w
  else
    { m_fifo := w.m_fifo ++ [w.m_held_bits]
      m_held_bits := 0
      m_num_held_bits := 0 }

/-- `TComOutputBitstream::insertAt(src, pos)`, lines 239–246.  The assertion
`0 == src_bits % 8` is modelled by `Option`.  Both objects at the call site
are returned (the source is `const`, so it comes back unchanged); the
`vector::insert` at iterator `begin() + pos` splices the bytes of `src` in before
byte offset `pos` (the iterator is only valid for `pos ≤ size()`, the
precondition under which the theorems use this definition). -/
def insertAt (w src : TComOutputBitstream) (pos : Nat) :
    Option (TComOutputBitstream × TComOutputBitstream) :=
  let src_bits := getNumberOfWrittenBits src
  if src_bits % 8 = 0 then
    some ({ w with
            m_fifo := w.m_fifo.take pos ++ src.m_fifo ++ w.m_fifo.drop pos },
          src)
  else none

/-- Well-formedness of a writer: these hold in every reachable state
(spec §3: `numHeldBits ∈ [0,7]`, held bits left-justified with the unused
low bits zero, fifo entries are octets). -/
def WF (w : TComOutputBitstream) : Prop :=
  w.m_num_held_bits ≤ 7 ∧ w.m_held_bits < 256 ∧
    w.m_held_bits % 2 ^ (8 - w.m_num_held_bits) = 0 ∧
    ∀ b ∈ w.m_fifo, b < 256

instance (w : TComOutputBitstream) : Decidable w.WF := by
  unfold WF; infer_instance

end TComOutputBitstream

namespace TComInputBitstream

/-- `TComInputBitstream::TComInputBitstream(buf)`: reader over a borrowed
buffer, cursor at 0, no held bits. -/
def construct (buf : List Nat) : TComInputBitstream := ⟨buf, 0, 0, 0⟩

/-- Modelled from the spec: `getNumBitsLeft` is declared in
`TComBitStream.h`, which is missing from the sources.  Per the spec (§3,
reader invariant: bits consumed so far `= cursorIndex*8 − numHeldBits`), the
bits remaining are `8 * (length − cursorIndex) + numHeldBits`. -/
def getNumBitsLeft (r : TComInputBitstream) : Nat :=
  8 * (r.m_fifo.length - r.m_fifo_idx) + r.m_num_held_bits

/-- `TComInputBitstream::read(uiNumberOfBits, ruiBits)`, lines 175–233.
The two assertions (`uiNumberOfBits <= 32` and
`m_fifo_idx + num_bytes_to_load < m_fifo->size()`) are modelled by `Option`.
The C `uiNumberOfBits -= m_num_held_bits` parameter mutation becomes the
local `numBits`.  `~(0xff << n)` on 32-bit `unsigned` is
`(2^32 − 1) ^^^ (0xff <<< n)` (the masked operand is below `2 ^ 32` in every
reachable use, where `n ≤ 7`).  The fall-through `switch` on
`num_bytes_to_load` loads `num_bytes_to_load + 1` bytes, most significant
first, advancing the cursor once per byte, and loads nothing in the
(unreachable) default case.  `m_held_bits` is an `unsigned char`, hence the
`% 256` when `aligned_word` is stored into it. -/
def read (r : TComInputBitstream) (uiNumberOfBits : Nat) :
    Option (Nat × TComInputBitstream) :=
  if uiNumberOfBits ≤ 32 then
    if uiNumberOfBits ≤ r.m_num_held_bits then
      let retval :=
        (r.m_held_bits >>> (r.m_num_held_bits - uiNumberOfBits)) &&&
          ((2 ^ 32 - 1) ^^^ ((0xff <<< uiNumberOfBits) % 2 ^ 32))
      some (retval,
            { r with m_num_held_bits := r.m_num_held_bits - uiNumberOfBits })
    else
      let numBits := uiNumberOfBits - r.m_num_held_bits
      let retval0 :=
        r.m_held_bits &&&
          ((2 ^ 32 - 1) ^^^ ((0xff <<< r.m_num_held_bits) % 2 ^ 32))
      let retval1 := (retval0 <<< numBits) % 2 ^ 32
      let num_bytes_to_load := (numBits - 1) >>> 3
      if r.m_fifo_idx + num_bytes_to_load < r.m_fifo.length then
        let loaded : Nat × Nat :=
          match num_bytes_to_load with
          | 3 => (((r.m_fifo.getD r.m_fifo_idx 0) <<< 24) |||
                  ((r.m_fifo.getD (r.m_fifo_idx + 1) 0) <<< 16) |||
                  ((r.m_fifo.getD (r.m_fifo_idx + 2) 0) <<< 8) |||
                  (r.m_fifo.getD (r.m_fifo_idx + 3) 0), 4)
          | 2 => (((r.m_fifo.getD r.m_fifo_idx 0) <<< 16) |||
                  ((r.m_fifo.getD (r.m_fifo_idx + 1) 0) <<< 8) |||
                  (r.m_fifo.getD (r.m_fifo_idx + 2) 0), 3)
          | 1 => (((r.m_fifo.getD r.m_fifo_idx 0) <<< 8) |||
                  (r.m_fifo.getD (r.m_fifo_idx + 1) 0), 2)
          | 0 => (r.m_fifo.getD r.m_fifo_idx 0, 1)
          | _ => (0, 0)
        let aligned_word := loaded.1
        let next_num_held_bits := (32 - numBits) % 8
        let retval2 := retval1 ||| (aligned_word >>> next_num_held_bits)
        some (retval2,
              { r with
                m_fifo_idx := r.m_fifo_idx + loaded.2
                m_held_bits := aligned_word % 256
                m_num_held_bits := next_num_held_bits })
      else none
  else none

/-- `TComInputBitstream::pseudoRead(uiNumberOfBits, ruiBits)`, lines
158–171: save the cursor/held state, perform a bounded `read` of
`min(uiNumberOfBits, getNumBitsLeft())`, left-shift the result to the
requested width (32-bit `unsigned` shift), then restore the saved state. -/
def pseudoRead (r : TComInputBitstream) (uiNumberOfBits : Nat) :
    Option (Nat × TComInputBitstream) :=
  let saved_num_held_bits := r.m_num_held_bits
  let saved_held_bits := r.m_held_bits
  let saved_fifo_idx := r.m_fifo_idx
  let num_bits_to_read := min uiNumberOfBits (getNumBitsLeft r)
  match read r num_bits_to_read with
  | none => none
  | some (v, r1) =>
      some ((v <<< (uiNumberOfBits - num_bits_to_read)) % 2 ^ 32,
            { r1 with
              m_fifo_idx := saved_fifo_idx
              m_held_bits := saved_held_bits
              m_num_held_bits := saved_num_held_bits })

/-- Well-formedness of a reader: these hold in every reachable state
(spec §3: `numHeldBits ∈ [0,7]`, the cursor never passes the end, fifo
entries are octets, held byte is an octet). -/
def WF (r : TComInputBitstream) : Prop :=
  r.m_num_held_bits ≤ 7 ∧ r.m_held_bits < 256 ∧
    r.m_fifo_idx ≤ r.m_fifo.length ∧ ∀ b ∈ r.m_fifo, b < 256

instance (r : TComInputBitstream) : Decidable r.WF := by
  unfold WF; infer_instance

end TComInputBitstream

/-! ## Bit-sequence abstraction

`bitsOfNat n v` is the MSB-first rendering of the low `n` bits of `v`;
`bitsVal` is its inverse; `bytesBits` renders a byte buffer MSB-first.
These connect the packed integer states of the two bitstream classes to the
abstract bit sequence they represent. -/

/-- MSB-first list of the low `n` bits of `v`. -/
def bitsOfNat : Nat → Nat → List Bool
  | 0, _ => []
  | n + 1, v => bitsOfNat n (v / 2) ++ [decide (v % 2 = 1)]

/-- Value of an MSB-first bit list. -/
def bitsVal : List Bool → Nat
  | [] => 0
  | b :: l => (if b then 1 else 0) * 2 ^ l.length + bitsVal l

/-- MSB-first bit rendering of a byte buffer. -/
def bytesBits (l : List Nat) : List Bool := (l.map (bitsOfNat 8)).flatten

@[simp] theorem bitsOfNat_zero (v : Nat) : bitsOfNat 0 v = [] := rfl

theorem bitsOfNat_succ (n v : Nat) :
    bitsOfNat (n + 1) v = bitsOfNat n (v / 2) ++ [decide (v % 2 = 1)] := rfl

@[simp] theorem bitsOfNat_length (n v : Nat) : (bitsOfNat n v).length = n := by
  induction n generalizing v with
  | zero => rfl
  | succ n ih => simp [bitsOfNat, ih]

theorem bitsOfNat_mod (n v : Nat) : bitsOfNat n (v % 2 ^ n) = bitsOfNat n v := by
  induction n generalizing v with
  | zero => rfl
  | succ n ih =>
    simp only [bitsOfNat_succ]
    have h1 : v % 2 ^ (n + 1) / 2 = v / 2 % 2 ^ n := by
      rw [Nat.pow_succ', Nat.mod_mul_right_div_self]
    have h2 : v % 2 ^ (n + 1) % 2 = v % 2 :=
      Nat.mod_mod_of_dvd v (dvd_pow_self 2 (Nat.succ_ne_zero n))
    rw [h1, h2, ih]

/-- Splitting an MSB-first rendering: the first `m` bits come from `x / 2^n`,
the last `n` bits from `x` itself. -/
theorem bitsOfNat_split (m n x : Nat) :
    bitsOfNat (m + n) x = bitsOfNat m (x / 2 ^ n) ++ bitsOfNat n x := by
  induction n generalizing x with
  | zero => simp
  | succ n ih =>
    have hmn : m + (n + 1) = (m + n) + 1 := rfl
    rw [hmn, bitsOfNat_succ, ih (x / 2), bitsOfNat_succ,
      Nat.div_div_eq_div_mul, ← Nat.pow_succ', List.append_assoc]

/-- Concatenation form of `bitsOfNat_split` for a value assembled as
`a * 2^n + b` with `b` confined to `n` bits. -/
theorem bitsOfNat_mul_add (m n a b : Nat) (hb : b < 2 ^ n) :
    bitsOfNat (m + n) (a * 2 ^ n + b) = bitsOfNat m a ++ bitsOfNat n b := by
  rw [bitsOfNat_split]
  have h1 : (a * 2 ^ n + b) / 2 ^ n = a := by
    rw [Nat.mul_comm a, Nat.mul_add_div (Nat.two_pow_pos n), Nat.div_eq_of_lt hb,
      Nat.add_zero]
  have h2 : bitsOfNat n (a * 2 ^ n + b) = bitsOfNat n b := by
    rw [← bitsOfNat_mod n (a * 2 ^ n + b), Nat.mul_comm a, Nat.mul_add_mod,
      Nat.mod_eq_of_lt hb]
  rw [h1, h2]

@[simp] theorem bitsVal_nil : bitsVal [] = 0 := rfl

theorem bitsVal_cons (b : Bool) (l : List Bool) :
    bitsVal (b :: l) = (if b then 1 else 0) * 2 ^ l.length + bitsVal l := rfl

theorem bitsVal_append (l1 l2 : List Bool) :
    bitsVal (l1 ++ l2) = bitsVal l1 * 2 ^ l2.length + bitsVal l2 := by
  induction l1 with
  | nil => simp
  | cons b l ih =>
    simp only [List.cons_append, bitsVal_cons, List.length_append, ih,
      pow_add]
    ring

theorem bitsVal_lt (l : List Bool) : bitsVal l < 2 ^ l.length := by
  induction l with
  | nil => simp
  | cons b l ih =>
    simp only [bitsVal_cons, List.length_cons, pow_succ]
    cases b <;> simp <;> omega

theorem bitsVal_bitsOfNat (n v : Nat) : bitsVal (bitsOfNat n v) = v % 2 ^ n := by
  induction n generalizing v with
  | zero => simp [Nat.mod_one]
  | succ n ih =>
    rw [bitsOfNat_succ, bitsVal_append, ih]
    have key : v % 2 ^ (n + 1) = v % 2 + 2 * (v / 2 % 2 ^ n) := by
      rw [Nat.pow_succ', Nat.mod_mul]
    have h2 : v % 2 < 2 := Nat.mod_lt v (by norm_num)
    rcases Nat.mod_two_eq_zero_or_one v with h | h <;>
      simp [bitsVal, h, key] <;> omega

@[simp] theorem bytesBits_nil : bytesBits [] = [] := rfl

theorem bytesBits_cons (b : Nat) (l : List Nat) :
    bytesBits (b :: l) = bitsOfNat 8 b ++ bytesBits l := by
  simp [bytesBits]

theorem bytesBits_append (l1 l2 : List Nat) :
    bytesBits (l1 ++ l2) = bytesBits l1 ++ bytesBits l2 := by
  simp [bytesBits]

@[simp] theorem bytesBits_length (l : List Nat) :
    (bytesBits l).length = 8 * l.length := by
  induction l with
  | nil => rfl
  | cons b l ih => simp [bytesBits_cons, ih]; ring

/-- The complemented 32-bit byte mask `~(0xff << s)` extracts the low `s`
bits of any value fitting in `s + 8` bits. -/
theorem land_comp_mask (x s : Nat) (hx : x < 2 ^ (s + 8)) (hs : s ≤ 24) :
    x &&& ((2 ^ 32 - 1) ^^^ ((0xff <<< s) % 2 ^ 32)) = x % 2 ^ s := by
  apply Nat.eq_of_testBit_eq
  intro i
  have hff : (0xff : Nat) = 2 ^ 8 - 1 := by norm_num
  simp only [Nat.testBit_and, Nat.testBit_xor, Nat.testBit_mod_two_pow,
    Nat.testBit_shiftLeft, hff, Nat.testBit_two_pow_sub_one, ge_iff_le]
  rcases Nat.lt_or_ge i s with h1 | h1
  · have h2 : i < 32 := by omega
    simp [h1, h2, Nat.not_le.mpr h1]
  · rcases Nat.lt_or_ge i (s + 8) with h2 | h2
    · have h3 : i < 32 := by omega
      simp [h3, h1, Nat.not_lt.mpr h1, show i - s < 8 by omega]
    · have h3 : x.testBit i = false :=
        Nat.testBit_lt_two_pow
          (lt_of_lt_of_le hx (Nat.pow_le_pow_right (by norm_num) h2))
      simp [h3, Nat.not_lt.mpr h1]

/-- The 32-bit mask `~((1 << 3) - 1) = 0xFFFFFFF8` rounds a 32-bit value
down to a multiple of 8. -/
theorem land_high_mask (x : Nat) (hx : x < 2 ^ 32) :
    x &&& 0xFFFFFFF8 = x / 2 ^ 3 * 2 ^ 3 := by
  apply Nat.eq_of_testBit_eq
  intro i
  have hm : (0xFFFFFFF8 : Nat) = (2 ^ 32 - 1) ^^^ (2 ^ 3 - 1) := by decide
  have hr : x / 2 ^ 3 * 2 ^ 3 = 2 ^ 3 * (x >>> 3) := by
    rw [Nat.shiftRight_eq_div_pow, Nat.mul_comm]
  rw [hm, hr]
  simp only [Nat.testBit_and, Nat.testBit_xor, Nat.testBit_two_pow_sub_one,
    Nat.testBit_mul_pow_two, Nat.testBit_shiftRight, ge_iff_le]
  rcases Nat.lt_or_ge i 3 with h1 | h1
  · simp [h1, Nat.not_le.mpr h1, show i < 32 by omega]
  · rcases Nat.lt_or_ge i 32 with h2 | h2
    · have h3 : 3 + (i - 3) = i := by omega
      simp [h1, h2, Nat.not_lt.mpr h1, h3]
    · have h3 : x.testBit i = false :=
        Nat.testBit_lt_two_pow
          (lt_of_lt_of_le hx (Nat.pow_le_pow_right (by norm_num) h2))
      have h4 : x.testBit (3 + (i - 3)) = false := by
        rwa [show 3 + (i - 3) = i by omega]
      simp [h3, h4, Nat.not_lt.mpr h1]

/-! ## Writer abstraction: the bit sequence a writer state represents -/

/-- The abstract bit sequence represented by a writer: the flushed bytes
followed by the valid (top `m_num_held_bits`) held bits. -/
def wBits (w : TComOutputBitstream) : List Bool :=
  bytesBits w.m_fifo ++
    bitsOfNat w.m_num_held_bits (w.m_held_bits >>> (8 - w.m_num_held_bits))

@[simp] theorem wBits_length (w : TComOutputBitstream) :
    (wBits w).length = 8 * w.m_fifo.length + w.m_num_held_bits := by
  simp [wBits]

theorem bitsOfNat_byte (m x : Nat) :
    bitsOfNat (m + 8) x = bitsOfNat m (x >>> 8) ++ bitsOfNat 8 x := by
  rw [bitsOfNat_split, Nat.shiftRight_eq_div_pow]

theorem bitsOfNat8_mod256 (x : Nat) : bitsOfNat 8 (x % 256) = bitsOfNat 8 x := by
  rw [show (256 : Nat) = 2 ^ 8 by norm_num, bitsOfNat_mod]


theorem bitsOfNat_top (m n x : Nat) :
    bitsOfNat (m + n) x = bitsOfNat m (x >>> n) ++ bitsOfNat n x := by
  rw [bitsOfNat_split, Nat.shiftRight_eq_div_pow]

theorem bytesBits_word1 (x : Nat) : bytesBits [x % 256] = bitsOfNat 8 x := by
  rw [bytesBits_cons, bytesBits_nil, List.append_nil, bitsOfNat8_mod256]

theorem bytesBits_word2 (x : Nat) :
    bytesBits [(x >>> 8) % 256, x % 256] = bitsOfNat 16 x := by
  rw [bytesBits_cons, bytesBits_word1, bitsOfNat8_mod256]
  conv_rhs => rw [show (16 : Nat) = 8 + 8 from rfl, bitsOfNat_top]

theorem bytesBits_word3 (x : Nat) :
    bytesBits [(x >>> 16) % 256, (x >>> 8) % 256, x % 256] = bitsOfNat 24 x := by
  rw [bytesBits_cons, bytesBits_word2, bitsOfNat8_mod256]
  conv_rhs => rw [show (24 : Nat) = 8 + 16 from rfl, bitsOfNat_top]

theorem bytesBits_word4 (x : Nat) :
    bytesBits [(x >>> 24) % 256, (x >>> 16) % 256, (x >>> 8) % 256, x % 256] =
      bitsOfNat 32 x := by
  rw [bytesBits_cons, bytesBits_word3, bitsOfNat8_mod256]
  conv_rhs => rw [show (32 : Nat) = 8 + 24 from rfl, bitsOfNat_top]

/-- Value of the freshly held byte after a flushing `write`. -/
theorem next_held_val (v next : Nat) (h : next ≤ 7) :
    (v <<< (8 - next)) % 256 = (v % 2 ^ next) * 2 ^ (8 - next) := by
  have h256 : (256 : Nat) = 2 ^ next * 2 ^ (8 - next) := by
    rw [← pow_add, show next + (8 - next) = 8 by omega]
    norm_num
  rw [Nat.shiftLeft_eq, h256, Nat.mul_mod_mul_right]

/-- Value of the justified word assembled in the flushing branch of `write`. -/
theorem write_bits_val (held nhb H v n : Nat) (hheld : held = H * 2 ^ (8 - nhb))
    (hH : H < 2 ^ nhb) (hnhb : nhb ≤ 7) (h8 : 8 ≤ n + nhb) (hn : n ≤ 32)
    (hv : v < 2 ^ n) :
    ((held <<< ((n - (n + nhb) % 8) &&& 0xFFFFFFF8)) ||| (v >>> ((n + nhb) % 8)))
        % 2 ^ 32 =
      2 ^ (8 * ((n + nhb) / 8) - nhb) * H + v / 2 ^ ((n + nhb) % 8) ∧
    2 ^ (8 * ((n + nhb) / 8) - nhb) * H + v / 2 ^ ((n + nhb) % 8) <
      2 ^ (8 * ((n + nhb) / 8)) := by
  have hk1 : 1 ≤ (n + nhb) / 8 := by omega
  have hk4 : (n + nhb) / 8 ≤ 4 := by omega
  have hvd : v / 2 ^ ((n + nhb) % 8) < 2 ^ (8 * ((n + nhb) / 8) - nhb) := by
    rw [Nat.div_lt_iff_lt_mul (Nat.two_pow_pos _), ← pow_add]
    refine lt_of_lt_of_le hv ?_
    apply Nat.pow_le_pow_right <;> omega
  have hwb_lt : 2 ^ (8 * ((n + nhb) / 8) - nhb) * H + v / 2 ^ ((n + nhb) % 8) <
      2 ^ (8 * ((n + nhb) / 8)) := by
    have e := Nat.mul_succ (2 ^ (8 * ((n + nhb) / 8) - nhb)) H
    calc 2 ^ (8 * ((n + nhb) / 8) - nhb) * H + v / 2 ^ ((n + nhb) % 8)
        < 2 ^ (8 * ((n + nhb) / 8) - nhb) * (H + 1) := by
          rw [Nat.mul_succ]
          exact Nat.add_lt_add_left hvd _
      _ ≤ 2 ^ (8 * ((n + nhb) / 8) - nhb) * 2 ^ nhb :=
          Nat.mul_le_mul_left _ hH
      _ = 2 ^ (8 * ((n + nhb) / 8)) := by
          rw [← pow_add, show 8 * ((n + nhb) / 8) - nhb + nhb = 8 * ((n + nhb) / 8)
            by omega]
  refine ⟨?_, hwb_lt⟩
  have hor : held <<< ((n - (n + nhb) % 8) &&& 0xFFFFFFF8) =
      2 ^ (8 * ((n + nhb) / 8) - nhb) * H := by
    rcases Nat.eq_zero_or_pos nhb with hz | hz
    · have hH0 : H = 0 := by
        have h1 : (2 : Nat) ^ nhb = 1 := by rw [hz]; rfl
        omega
      rw [hheld, hH0]
      simp
    · have htop : (n - (n + nhb) % 8) &&& 0xFFFFFFF8 = 8 * ((n + nhb) / 8 - 1) := by
        rw [land_high_mask _ (by omega)]
        rw [show (2 : Nat) ^ 3 = 8 by norm_num]
        omega
      rw [htop, Nat.shiftLeft_eq, hheld, Nat.mul_assoc, ← pow_add,
        show 8 - nhb + 8 * ((n + nhb) / 8 - 1) = 8 * ((n + nhb) / 8) - nhb by omega,
        Nat.mul_comm]
  rw [hor, Nat.shiftRight_eq_div_pow, ← Nat.mul_add_lt_is_or hvd H,
    Nat.mod_eq_of_lt]
  refine lt_of_lt_of_le hwb_lt ?_
  apply Nat.pow_le_pow_right <;> omega

/-- The state produced by the flushing branch of `write` is well formed and
represents the old bits followed by the `n` new bits. -/
theorem write_big_finish (fifo pushed : List Nat) (H nhb v n k next : Nat)
    (hfifo : ∀ b ∈ fifo, b < 256) (hpushed : ∀ b ∈ pushed, b < 256)
    (hbB : bytesBits pushed =
      bitsOfNat (8 * k) (2 ^ (8 * k - nhb) * H + v / 2 ^ next))
    (hnext7 : next ≤ 7) (h8k : 8 * k + next = n + nhb) (hnhb : nhb ≤ 7)
    (hk1 : 1 ≤ k) (hvd : v / 2 ^ next < 2 ^ (8 * k - nhb)) :
    (TComOutputBitstream.mk (fifo ++ pushed)
        ((v % 2 ^ next) * 2 ^ (8 - next)) next).WF ∧
      wBits ⟨fifo ++ pushed, (v % 2 ^ next) * 2 ^ (8 - next), next⟩ =
        wBits ⟨fifo, H * 2 ^ (8 - nhb), nhb⟩ ++ bitsOfNat n v := by
  have hproj : ((v % 2 ^ next) * 2 ^ (8 - next)) >>> (8 - next) = v % 2 ^ next := by
    rw [Nat.shiftRight_eq_div_pow, Nat.mul_div_cancel _ (Nat.two_pow_pos _)]
  have hprojH : (H * 2 ^ (8 - nhb)) >>> (8 - nhb) = H := by
    rw [Nat.shiftRight_eq_div_pow, Nat.mul_div_cancel _ (Nat.two_pow_pos _)]
  constructor
  · refine ⟨hnext7, ?_, Nat.mul_mod_left _ _, ?_⟩
    · show (v % 2 ^ next) * 2 ^ (8 - next) < 256
      calc (v % 2 ^ next) * 2 ^ (8 - next) < 2 ^ next * 2 ^ (8 - next) :=
            (Nat.mul_lt_mul_right (Nat.two_pow_pos _)).mpr
              (Nat.mod_lt _ (Nat.two_pow_pos _))
        _ = 256 := by
            rw [← pow_add, show next + (8 - next) = 8 by omega]; norm_num
    · intro b hb
      rcases List.mem_append.mp hb with h | h
      · exact hfifo b h
      · exact hpushed b h
  · have hsplit : bitsOfNat (8 * k) (2 ^ (8 * k - nhb) * H + v / 2 ^ next) =
        bitsOfNat nhb H ++ bitsOfNat (8 * k - nhb) (v / 2 ^ next) := by
      rw [Nat.mul_comm (2 ^ (8 * k - nhb)) H,
        ← bitsOfNat_mul_add nhb (8 * k - nhb) H (v / 2 ^ next) hvd]
      congr 1
      omega
    have hcomb : bitsOfNat (8 * k - nhb) (v / 2 ^ next) ++
        bitsOfNat next (v % 2 ^ next) = bitsOfNat n v := by
      rw [bitsOfNat_mod, ← bitsOfNat_split,
        show 8 * k - nhb + next = n by omega]
    simp only [wBits, hproj, hprojH, bytesBits_append]
    rw [hbB, hsplit, ← hcomb]
    simp [List.append_assoc]

/-- Central correctness of `TComOutputBitstream::write`: on a well-formed
writer, writing the low `n ≤ 32` bits of `v` appends exactly `bitsOfNat n v`
to the abstract bit sequence and preserves well-formedness. -/
theorem write_spec (w : TComOutputBitstream) (v n : Nat) (hw : w.WF)
    (hn : n ≤ 32) (hv : v < 2 ^ n) :
    (w.write v n).WF ∧ wBits (w.write v n) = wBits w ++ bitsOfNat n v := by
  obtain ⟨fifo, held, nhb⟩ := w
  obtain ⟨hnhb, hheld, hlow, hfifo⟩ := hw
  simp only at hnhb hheld hlow hfifo
  have hHeq : held = (held / 2 ^ (8 - nhb)) * 2 ^ (8 - nhb) := by
    conv_lhs => rw [← Nat.div_add_mod held (2 ^ (8 - nhb))]
    rw [hlow, Nat.add_zero, Nat.mul_comm]
  set H := held / 2 ^ (8 - nhb) with hH_def
  have hHlt : H < 2 ^ nhb := by
    rw [hH_def, Nat.div_lt_iff_lt_mul (Nat.two_pow_pos _)]
    calc held < 256 := hheld
      _ ≤ 2 ^ nhb * 2 ^ (8 - nhb) := by
          rw [← pow_add, show nhb + (8 - nhb) = 8 by omega]; norm_num
  have hHproj : held >>> (8 - nhb) = H := by
    rw [Nat.shiftRight_eq_div_pow, hH_def]
  by_cases hk : (n + nhb) >>> 3 = 0
  · -- no byte completed: the new bits merge into the held byte
    have htot : n + nhb < 8 := by
      rw [Nat.shiftRight_eq_div_pow] at hk; norm_num at hk; omega
    have hnext : (n + nhb) % 8 = n + nhb := Nat.mod_eq_of_lt htot
    have hb : v * 2 ^ (8 - (n + nhb)) < 2 ^ (8 - nhb) := by
      calc v * 2 ^ (8 - (n + nhb)) < 2 ^ n * 2 ^ (8 - (n + nhb)) :=
            (Nat.mul_lt_mul_right (Nat.two_pow_pos _)).mpr hv
        _ = 2 ^ (8 - nhb) := by
            rw [← pow_add, show n + (8 - (n + nhb)) = 8 - nhb by omega]
    have hb256 : v * 2 ^ (8 - (n + nhb)) < 256 := by
      refine lt_of_lt_of_le hb ?_
      calc (2 : Nat) ^ (8 - nhb) ≤ 2 ^ 8 := by
            apply Nat.pow_le_pow_right <;> omega
        _ = 256 := by norm_num
    have hnhbits : (v <<< (8 - (n + nhb))) % 256 = v * 2 ^ (8 - (n + nhb)) := by
      rw [Nat.shiftLeft_eq, Nat.mod_eq_of_lt hb256]
    have hor : held ||| v * 2 ^ (8 - (n + nhb)) =
        2 ^ (8 - (n + nhb)) * (2 ^ n * H + v) := by
      rw [hHeq, Nat.mul_comm H, ← Nat.mul_add_lt_is_or hb H,
        show (8 : Nat) - nhb = (8 - (n + nhb)) + n by omega, pow_add]
      ring
    have hresult :
        (TComOutputBitstream.mk fifo held nhb).write v n =
          ⟨fifo, 2 ^ (8 - (n + nhb)) * (2 ^ n * H + v), n + nhb⟩ := by
      simp only [TComOutputBitstream.write]
      rw [if_pos hk]
      simp only [hnext, hnhbits, hor]
    rw [hresult]
    have hsum_lt : 2 ^ n * H + v < 2 ^ (n + nhb) := by
      calc 2 ^ n * H + v < 2 ^ n * H + 2 ^ n := by omega
        _ = 2 ^ n * (H + 1) := by ring
        _ ≤ 2 ^ n * 2 ^ nhb := Nat.mul_le_mul_left _ hHlt
        _ = 2 ^ (n + nhb) := (pow_add 2 n nhb).symm
    refine ⟨⟨by show n + nhb ≤ 7; omega, ?_, Nat.mul_mod_right _ _, hfifo⟩, ?_⟩
    · show 2 ^ (8 - (n + nhb)) * (2 ^ n * H + v) < 256
      calc 2 ^ (8 - (n + nhb)) * (2 ^ n * H + v)
          < 2 ^ (8 - (n + nhb)) * 2 ^ (n + nhb) :=
            (Nat.mul_lt_mul_left (Nat.two_pow_pos _)).mpr hsum_lt
        _ = 2 ^ 8 := by
            rw [← pow_add, show 8 - (n + nhb) + (n + nhb) = 8 by omega]
        _ = 256 := by norm_num
    · simp only [wBits]
      have hproj2 : (2 ^ (8 - (n + nhb)) * (2 ^ n * H + v)) >>> (8 - (n + nhb)) =
          2 ^ n * H + v := by
        rw [Nat.shiftRight_eq_div_pow,
          Nat.mul_div_cancel_left _ (Nat.two_pow_pos _)]
      rw [hproj2, hHproj]
      have hsplit : bitsOfNat (n + nhb) (2 ^ n * H + v) =
          bitsOfNat nhb H ++ bitsOfNat n v := by
        rw [show n + nhb = nhb + n by omega, Nat.mul_comm (2 ^ n) H,
          bitsOfNat_mul_add nhb n H v hv]
      rw [hsplit, List.append_assoc]
  · -- at least one byte completed
    have htot8 : 8 ≤ n + nhb := by
      rw [Nat.shiftRight_eq_div_pow] at hk; norm_num at hk; omega
    have hkdiv : (n + nhb) >>> 3 = (n + nhb) / 8 := by
      rw [Nat.shiftRight_eq_div_pow]
    obtain ⟨hwb, hwblt⟩ := write_bits_val held nhb H v n hHeq hHlt hnhb htot8 hn hv
    have hnext7 : (n + nhb) % 8 ≤ 7 := by omega
    have hnhbits := next_held_val v ((n + nhb) % 8) hnext7
    have hvd : v / 2 ^ ((n + nhb) % 8) < 2 ^ (8 * ((n + nhb) / 8) - nhb) := by
      rw [Nat.div_lt_iff_lt_mul (Nat.two_pow_pos _), ← pow_add]
      refine lt_of_lt_of_le hv ?_
      apply Nat.pow_le_pow_right <;> omega
    have h8k : 8 * ((n + nhb) / 8) + (n + nhb) % 8 = n + nhb := by omega
    rcases (show (n + nhb) >>> 3 = 1 ∨ (n + nhb) >>> 3 = 2 ∨
        (n + nhb) >>> 3 = 3 ∨ (n + nhb) >>> 3 = 4 by rw [hkdiv]; omega)
      with hkv | hkv | hkv | hkv
    · have hq : (n + nhb) / 8 = 1 := by rw [← hkdiv, hkv]
      rw [hq] at hwb hvd h8k
      have hresult : (TComOutputBitstream.mk fifo held nhb).write v n =
          ⟨fifo ++ [(2 ^ (8 * 1 - nhb) * H + v / 2 ^ ((n + nhb) % 8)) % 256],
           (v % 2 ^ ((n + nhb) % 8)) * 2 ^ (8 - (n + nhb) % 8), (n + nhb) % 8⟩ := by
        simp only [TComOutputBitstream.write]
        rw [if_neg hk]
        simp only [hkv, hwb, hnhbits]
      rw [hresult, hHeq]
      refine write_big_finish fifo _ H nhb v n 1 ((n + nhb) % 8) hfifo ?_ ?_
        hnext7 h8k hnhb (by norm_num) hvd
      · intro b hb
        simp only [List.mem_cons, List.not_mem_nil, or_false] at hb
        rcases hb with rfl
        exact Nat.mod_lt _ (by norm_num)
      · rw [bytesBits_word1]
    · have hq : (n + nhb) / 8 = 2 := by rw [← hkdiv, hkv]
      rw [hq] at hwb hvd h8k
      have hresult : (TComOutputBitstream.mk fifo held nhb).write v n =
          ⟨fifo ++ [((2 ^ (8 * 2 - nhb) * H + v / 2 ^ ((n + nhb) % 8)) >>> 8) % 256,
                    (2 ^ (8 * 2 - nhb) * H + v / 2 ^ ((n + nhb) % 8)) % 256],
           (v % 2 ^ ((n + nhb) % 8)) * 2 ^ (8 - (n + nhb) % 8), (n + nhb) % 8⟩ := by
        simp only [TComOutputBitstream.write]
        rw [if_neg hk]
        simp only [hkv, hwb, hnhbits]
      rw [hresult, hHeq]
      refine write_big_finish fifo _ H nhb v n 2 ((n + nhb) % 8) hfifo ?_ ?_
        hnext7 h8k hnhb (by norm_num) hvd
      · intro b hb
        simp only [List.mem_cons, List.not_mem_nil, or_false] at hb
        rcases hb with rfl | rfl <;> exact Nat.mod_lt _ (by norm_num)
      · rw [bytesBits_word2]
    · have hq : (n + nhb) / 8 = 3 := by rw [← hkdiv, hkv]
      rw [hq] at hwb hvd h8k
      have hresult : (TComOutputBitstream.mk fifo held nhb).write v n =
          ⟨fifo ++ [((2 ^ (8 * 3 - nhb) * H + v / 2 ^ ((n + nhb) % 8)) >>> 16) % 256,
                    ((2 ^ (8 * 3 - nhb) * H + v / 2 ^ ((n + nhb) % 8)) >>> 8) % 256,
                    (2 ^ (8 * 3 - nhb) * H + v / 2 ^ ((n + nhb) % 8)) % 256],
           (v % 2 ^ ((n + nhb) % 8)) * 2 ^ (8 - (n + nhb) % 8), (n + nhb) % 8⟩ := by
        simp only [TComOutputBitstream.write]
        rw [if_neg hk]
        simp only [hkv, hwb, hnhbits]
      rw [hresult, hHeq]
      refine write_big_finish fifo _ H nhb v n 3 ((n + nhb) % 8) hfifo ?_ ?_
        hnext7 h8k hnhb (by norm_num) hvd
      · intro b hb
        simp only [List.mem_cons, List.not_mem_nil, or_false] at hb
        rcases hb with rfl | rfl | rfl <;> exact Nat.mod_lt _ (by norm_num)
      · rw [bytesBits_word3]
    · have hq : (n + nhb) / 8 = 4 := by rw [← hkdiv, hkv]
      rw [hq] at hwb hvd h8k
      have hresult : (TComOutputBitstream.mk fifo held nhb).write v n =
          ⟨fifo ++ [((2 ^ (8 * 4 - nhb) * H + v / 2 ^ ((n + nhb) % 8)) >>> 24) % 256,
                    ((2 ^ (8 * 4 - nhb) * H + v / 2 ^ ((n + nhb) % 8)) >>> 16) % 256,
                    ((2 ^ (8 * 4 - nhb) * H + v / 2 ^ ((n + nhb) % 8)) >>> 8) % 256,
                    (2 ^ (8 * 4 - nhb) * H + v / 2 ^ ((n + nhb) % 8)) % 256],
           (v % 2 ^ ((n + nhb) % 8)) * 2 ^ (8 - (n + nhb) % 8), (n + nhb) % 8⟩ := by
        simp only [TComOutputBitstream.write]
        rw [if_neg hk]
        simp only [hkv, hwb, hnhbits]
      rw [hresult, hHeq]
      refine write_big_finish fifo _ H nhb v n 4 ((n + nhb) % 8) hfifo ?_ ?_
        hnext7 h8k hnhb (by norm_num) hvd
      · intro b hb
        simp only [List.mem_cons, List.not_mem_nil, or_false] at hb
        rcases hb with rfl | rfl | rfl | rfl <;> exact Nat.mod_lt _ (by norm_num)
      · rw [bytesBits_word4]

/-- Left-justified held bits decompose as quotient times the alignment power. -/
theorem held_decomp (held nhb : Nat) (hlow : held % 2 ^ (8 - nhb) = 0) :
    held = (held / 2 ^ (8 - nhb)) * 2 ^ (8 - nhb) := by
  conv_lhs => rw [← Nat.div_add_mod held (2 ^ (8 - nhb))]
  rw [hlow, Nat.add_zero, Nat.mul_comm]

/-- `write` always leaves `(n + old) % 8` held bits, whatever the value. -/
theorem write_num_held (w : TComOutputBitstream) (v n : Nat) :
    (w.write v n).m_num_held_bits = (n + w.m_num_held_bits) % 8 := by
  simp only [TComOutputBitstream.write]
  split <;> rfl

theorem wBits_of_aligned (w : TComOutputBitstream) (h : w.m_num_held_bits = 0) :
    wBits w = bytesBits w.m_fifo := by
  simp [wBits, h]

theorem writeAlignZero_num_held (w : TComOutputBitstream) :
    (w.writeAlignZero).m_num_held_bits = 0 := by
  simp only [TComOutputBitstream.writeAlignZero]
  split
  · assumption
  · rfl

theorem writeAlignZero_of_aligned (w : TComOutputBitstream)
    (h : w.m_num_held_bits = 0) : w.writeAlignZero = w := by
  simp only [TComOutputBitstream.writeAlignZero, if_pos h]

theorem write_zero_zero (w : TComOutputBitstream) (h : w.m_num_held_bits = 0) :
    w.write 0 0 = w := by
  obtain ⟨fifo, held, nhb⟩ := w
  simp only at h
  subst h
  simp [TComOutputBitstream.write]

theorem writeAlignOne_of_aligned (w : TComOutputBitstream)
    (h : w.m_num_held_bits = 0) : w.writeAlignOne = w := by
  have h0 : TComOutputBitstream.getNumBitsUntilByteAligned w = 0 := by
    simp [TComOutputBitstream.getNumBitsUntilByteAligned, h]
  simp only [TComOutputBitstream.writeAlignOne, h0]
  exact write_zero_zero w h

theorem writeAlignOne_num_held (w : TComOutputBitstream)
    (h : w.m_num_held_bits ≤ 7) : (w.writeAlignOne).m_num_held_bits = 0 := by
  simp only [TComOutputBitstream.writeAlignOne,
    TComOutputBitstream.getNumBitsUntilByteAligned]
  rw [write_num_held]
  omega

/-- `writeAlignZero` flushes the held bits padded with zero bits. -/
theorem writeAlignZero_spec (w : TComOutputBitstream) (hw : w.WF) :
    (w.writeAlignZero).WF ∧ (w.writeAlignZero).m_num_held_bits = 0 ∧
      bytesBits (w.writeAlignZero).m_fifo =
        wBits w ++ bitsOfNat ((8 - w.m_num_held_bits) % 8) 0 := by
  obtain ⟨fifo, held, nhb⟩ := w
  obtain ⟨hnhb, hheld, hlow, hfifo⟩ := hw
  simp only at hnhb hheld hlow hfifo
  by_cases hz : nhb = 0
  · subst hz
    have heq : (TComOutputBitstream.mk fifo held 0).writeAlignZero =
        ⟨fifo, held, 0⟩ := writeAlignZero_of_aligned _ rfl
    rw [heq]
    refine ⟨⟨by show (0:Nat) ≤ 7; omega, hheld, hlow, hfifo⟩, rfl, ?_⟩
    simp [wBits]
  · have hresult : (TComOutputBitstream.mk fifo held nhb).writeAlignZero =
        ⟨fifo ++ [held], 0, 0⟩ := by
      simp only [TComOutputBitstream.writeAlignZero]
      rw [if_neg hz]
    rw [hresult]
    refine ⟨⟨by show (0:Nat) ≤ 7; omega, by norm_num, by norm_num, ?_⟩, rfl, ?_⟩
    · intro b hb
      rcases List.mem_append.mp hb with h | h
      · exact hfifo b h
      · simp only [List.mem_singleton] at h
        subst h
        exact hheld
    · have h8 := bitsOfNat_mul_add nhb (8 - nhb) (held / 2 ^ (8 - nhb)) 0
        (Nat.two_pow_pos _)
      rw [Nat.add_zero, ← held_decomp held nhb hlow,
        show nhb + (8 - nhb) = 8 by omega] at h8
      simp only [wBits]
      rw [bytesBits_append, bytesBits_cons, bytesBits_nil, List.append_nil, h8,
        Nat.shiftRight_eq_div_pow, show (8 - nhb) % 8 = 8 - nhb by omega,
        List.append_assoc]

/-- `writeAlignOne` flushes the held bits padded with one bits. -/
theorem writeAlignOne_spec (w : TComOutputBitstream) (hw : w.WF) :
    (w.writeAlignOne).WF ∧ (w.writeAlignOne).m_num_held_bits = 0 ∧
      bytesBits (w.writeAlignOne).m_fifo =
        wBits w ++ bitsOfNat ((8 - w.m_num_held_bits) % 8)
          (2 ^ ((8 - w.m_num_held_bits) % 8) - 1) := by
  have hval : (1 <<< ((8 - w.m_num_held_bits) % 8)) - 1 =
      2 ^ ((8 - w.m_num_held_bits) % 8) - 1 := by
    rw [Nat.shiftLeft_eq, Nat.one_mul]
  have hlt : 2 ^ ((8 - w.m_num_held_bits) % 8) - 1 <
      2 ^ ((8 - w.m_num_held_bits) % 8) :=
    Nat.sub_lt (Nat.two_pow_pos _) one_pos
  have hone : w.writeAlignOne =
      w.write (2 ^ ((8 - w.m_num_held_bits) % 8) - 1)
        ((8 - w.m_num_held_bits) % 8) := by
    simp only [TComOutputBitstream.writeAlignOne,
      TComOutputBitstream.getNumBitsUntilByteAligned, hval]
  obtain ⟨hw1, hw2⟩ := write_spec w (2 ^ ((8 - w.m_num_held_bits) % 8) - 1)
      ((8 - w.m_num_held_bits) % 8) hw (by omega) hlt
  have hnum : (w.writeAlignOne).m_num_held_bits = 0 :=
    writeAlignOne_num_held w hw.1
  rw [hone] at hnum
  refine ⟨?_, ?_, ?_⟩
  · rw [hone]; exact hw1
  · rw [hone]; exact hnum
  · rw [hone, ← wBits_of_aligned _ hnum, hw2]

/-! ## Reader abstraction: the unread bit sequence of a reader state -/

/-- The abstract unread bit sequence of a reader: the low `m_num_held_bits`
bits of the held byte followed by the bytes not yet loaded. -/
def rBits (r : TComInputBitstream) : List Bool :=
  bitsOfNat r.m_num_held_bits r.m_held_bits ++
    bytesBits (r.m_fifo.drop r.m_fifo_idx)

@[simp] theorem rBits_length (r : TComInputBitstream) :
    (rBits r).length =
      r.m_num_held_bits + 8 * (r.m_fifo.length - r.m_fifo_idx) := by
  simp [rBits]

theorem rBits_length_eq_getNumBitsLeft (r : TComInputBitstream) :
    (rBits r).length = TComInputBitstream.getNumBitsLeft r := by
  simp [TComInputBitstream.getNumBitsLeft]
  omega

theorem bitsOfNat_mod_ge (k m x : Nat) (h : k ≤ m) :
    bitsOfNat k (x % 2 ^ m) = bitsOfNat k x := by
  rw [← bitsOfNat_mod k (x % 2 ^ m), Nat.mod_mod_of_dvd _ (pow_dvd_pow 2 h),
    bitsOfNat_mod]

theorem take_prefix_append {α : Type} (A X Y : List α) (n : Nat)
    (hA : A.length ≤ n) (hX : X.length = n - A.length) :
    (A ++ (X ++ Y)).take n = A ++ X := by
  rw [List.take_append_eq_append_take, List.take_of_length_le hA,
    List.take_append_eq_append_take, List.take_of_length_le (le_of_eq hX),
    hX, Nat.sub_self, List.take_zero, List.append_nil]

theorem drop_prefix_append {α : Type} (A X Y : List α) (n : Nat)
    (hA : A.length ≤ n) (hX : X.length = n - A.length) :
    (A ++ (X ++ Y)).drop n = Y := by
  rw [List.drop_append_eq_append_drop, List.drop_eq_nil_of_le hA,
    List.nil_append, List.drop_append_eq_append_drop,
    List.drop_eq_nil_of_le (le_of_eq hX), List.nil_append, hX, Nat.sub_self,
    List.drop_zero]

theorem getD_eq (fifo : List Nat) (i : Nat) (h : i < fifo.length) :
    fifo.getD i 0 = fifo[i] := by
  rw [List.getD_eq_getElem?_getD, List.getElem?_eq_getElem h, Option.getD_some]

theorem getD_lt (fifo : List Nat) (i : Nat) (h : i < fifo.length)
    (hf : ∀ b ∈ fifo, b < 256) : fifo.getD i 0 < 256 := by
  rw [getD_eq fifo i h]
  exact hf _ (List.getElem_mem h)

/-- The common tail of the multi-byte branch of `TComInputBitstream::read`:
relating the computed word to the abstract bit sequence. -/
theorem read_finish (fifo : List Nat) (idx held nhb n L aligned : Nat)
    (bytesL : List Nat)
    (hnhb : nhb ≤ 7) (hlt : nhb < n) (hn : n ≤ 32) (hheld : held < 256)
    (hL : 8 * L = (n - nhb) + (32 - (n - nhb)) % 8)
    (hsplit : fifo.drop idx = bytesL ++ fifo.drop (idx + L))
    (hbB : bytesBits bytesL = bitsOfNat (8 * L) aligned)
    (halg : aligned < 2 ^ (8 * L)) :
    ((held &&& ((2 ^ 32 - 1) ^^^ ((0xff <<< nhb) % 2 ^ 32))) <<< (n - nhb))
          % 2 ^ 32 ||| (aligned >>> ((32 - (n - nhb)) % 8)) =
        bitsVal ((bitsOfNat nhb held ++ bytesBits (fifo.drop idx)).take n) ∧
      bitsOfNat ((32 - (n - nhb)) % 8) (aligned % 256) ++
          bytesBits (fifo.drop (idx + L)) =
        (bitsOfNat nhb held ++ bytesBits (fifo.drop idx)).drop n := by
  have hnext7 : (32 - (n - nhb)) % 8 ≤ 7 := by omega
  have hmask : held &&& ((2 ^ 32 - 1) ^^^ ((0xff <<< nhb) % 2 ^ 32)) =
      held % 2 ^ nhb := by
    refine land_comp_mask held nhb (lt_of_lt_of_le hheld ?_) (by omega)
    calc (256 : Nat) = 2 ^ 8 := by norm_num
      _ ≤ 2 ^ (nhb + 8) := by apply Nat.pow_le_pow_right <;> omega
  have hhx : held % 2 ^ nhb < 2 ^ nhb := Nat.mod_lt _ (Nat.two_pow_pos _)
  have hshift : ((held % 2 ^ nhb) <<< (n - nhb)) % 2 ^ 32 =
      (held % 2 ^ nhb) * 2 ^ (n - nhb) := by
    rw [Nat.shiftLeft_eq, Nat.mod_eq_of_lt]
    calc (held % 2 ^ nhb) * 2 ^ (n - nhb) < 2 ^ nhb * 2 ^ (n - nhb) :=
          (Nat.mul_lt_mul_right (Nat.two_pow_pos _)).mpr hhx
      _ = 2 ^ n := by rw [← pow_add]; congr 1; omega
      _ ≤ 2 ^ 32 := by apply Nat.pow_le_pow_right <;> omega
  have hdivlt : aligned / 2 ^ ((32 - (n - nhb)) % 8) < 2 ^ (n - nhb) := by
    rw [Nat.div_lt_iff_lt_mul (Nat.two_pow_pos _), ← pow_add]
    refine lt_of_lt_of_le halg ?_
    apply Nat.pow_le_pow_right <;> omega
  have hor : (held % 2 ^ nhb) * 2 ^ (n - nhb) |||
      aligned >>> ((32 - (n - nhb)) % 8) =
      (held % 2 ^ nhb) * 2 ^ (n - nhb) +
        aligned / 2 ^ ((32 - (n - nhb)) % 8) := by
    rw [Nat.shiftRight_eq_div_pow, Nat.mul_comm (held % 2 ^ nhb),
      ← Nat.mul_add_lt_is_or hdivlt (held % 2 ^ nhb)]
  have hsplitbits : bitsOfNat (8 * L) aligned =
      bitsOfNat (n - nhb) (aligned / 2 ^ ((32 - (n - nhb)) % 8)) ++
        bitsOfNat ((32 - (n - nhb)) % 8) aligned := by
    conv_lhs => rw [hL, bitsOfNat_split]
  have hbytes : bytesBits (fifo.drop idx) =
      bitsOfNat (n - nhb) (aligned / 2 ^ ((32 - (n - nhb)) % 8)) ++
        (bitsOfNat ((32 - (n - nhb)) % 8) aligned ++
          bytesBits (fifo.drop (idx + L))) := by
    rw [hsplit, bytesBits_append, hbB, hsplitbits, List.append_assoc]
  constructor
  · rw [hmask, hshift, hor, hbytes,
      take_prefix_append _ _ _ n (by simp; omega) (by simp),
      bitsVal_append, bitsVal_bitsOfNat, bitsVal_bitsOfNat, bitsOfNat_length,
      Nat.mod_eq_of_lt hdivlt]
  · rw [hbytes, drop_prefix_append _ _ _ n (by simp; omega) (by simp),
      show (256 : Nat) = 2 ^ 8 by norm_num,
      bitsOfNat_mod_ge _ 8 _ (by omega)]

theorem or_word2 (B0 B1 : Nat) (h1 : B1 < 256) :
    (B0 <<< 8) ||| B1 = 2 ^ 8 * B0 + B1 := by
  rw [Nat.shiftLeft_eq, Nat.mul_comm B0,
    ← Nat.mul_add_lt_is_or (show B1 < 2 ^ 8 by omega) B0]

theorem or_word3 (B0 B1 B2 : Nat) (h1 : B1 < 256) (h2 : B2 < 256) :
    (B0 <<< 16) ||| (B1 <<< 8) ||| B2 = 2 ^ 16 * B0 + 2 ^ 8 * B1 + B2 := by
  have e1 : (B0 <<< 16) ||| (B1 <<< 8) = 2 ^ 16 * B0 + 2 ^ 8 * B1 := by
    rw [Nat.shiftLeft_eq, Nat.shiftLeft_eq, Nat.mul_comm B0, Nat.mul_comm B1,
      ← Nat.mul_add_lt_is_or (show 2 ^ 8 * B1 < 2 ^ 16 by omega) B0]
  rw [e1, show 2 ^ 16 * B0 + 2 ^ 8 * B1 = 2 ^ 8 * (2 ^ 8 * B0 + B1) by ring,
    ← Nat.mul_add_lt_is_or (show B2 < 2 ^ 8 by omega)]

theorem or_word4 (B0 B1 B2 B3 : Nat) (h1 : B1 < 256) (h2 : B2 < 256)
    (h3 : B3 < 256) :
    (B0 <<< 24) ||| (B1 <<< 16) ||| (B2 <<< 8) ||| B3 =
      2 ^ 24 * B0 + 2 ^ 16 * B1 + 2 ^ 8 * B2 + B3 := by
  have e1 : (B0 <<< 24) ||| (B1 <<< 16) = 2 ^ 24 * B0 + 2 ^ 16 * B1 := by
    rw [Nat.shiftLeft_eq, Nat.shiftLeft_eq, Nat.mul_comm B0, Nat.mul_comm B1,
      ← Nat.mul_add_lt_is_or (show 2 ^ 16 * B1 < 2 ^ 24 by omega) B0]
  have e2 : 2 ^ 24 * B0 + 2 ^ 16 * B1 ||| (B2 <<< 8) =
      2 ^ 24 * B0 + 2 ^ 16 * B1 + 2 ^ 8 * B2 := by
    rw [Nat.shiftLeft_eq, Nat.mul_comm B2,
      show 2 ^ 24 * B0 + 2 ^ 16 * B1 = 2 ^ 16 * (2 ^ 8 * B0 + B1) by ring,
      ← Nat.mul_add_lt_is_or (show 2 ^ 8 * B2 < 2 ^ 16 by omega)]
  rw [e1, e2,
    show 2 ^ 24 * B0 + 2 ^ 16 * B1 + 2 ^ 8 * B2 =
      2 ^ 8 * (2 ^ 16 * B0 + 2 ^ 8 * B1 + B2) by ring,
    ← Nat.mul_add_lt_is_or (show B3 < 2 ^ 8 by omega)]

theorem bytesBits_one (B0 : Nat) : bytesBits [B0] = bitsOfNat 8 B0 := by
  rw [bytesBits_cons, bytesBits_nil, List.append_nil]

theorem bytesBits_two (B0 B1 : Nat) (h1 : B1 < 256) :
    bytesBits [B0, B1] = bitsOfNat 16 (2 ^ 8 * B0 + B1) := by
  rw [bytesBits_cons, bytesBits_one,
    show 2 ^ 8 * B0 + B1 = B0 * 2 ^ 8 + B1 by ring,
    show (16 : Nat) = 8 + 8 from rfl,
    bitsOfNat_mul_add 8 8 B0 B1 (by omega)]

theorem bytesBits_three (B0 B1 B2 : Nat) (h1 : B1 < 256) (h2 : B2 < 256) :
    bytesBits [B0, B1, B2] = bitsOfNat 24 (2 ^ 16 * B0 + 2 ^ 8 * B1 + B2) := by
  rw [bytesBits_cons, bytesBits_two B1 B2 h2,
    show 2 ^ 16 * B0 + 2 ^ 8 * B1 + B2 = B0 * 2 ^ 16 + (2 ^ 8 * B1 + B2) by ring,
    show (24 : Nat) = 8 + 16 from rfl,
    bitsOfNat_mul_add 8 16 B0 _ (by omega)]

theorem bytesBits_four (B0 B1 B2 B3 : Nat) (h1 : B1 < 256) (h2 : B2 < 256)
    (h3 : B3 < 256) :
    bytesBits [B0, B1, B2, B3] =
      bitsOfNat 32 (2 ^ 24 * B0 + 2 ^ 16 * B1 + 2 ^ 8 * B2 + B3) := by
  rw [bytesBits_cons, bytesBits_three B1 B2 B3 h2 h3,
    show 2 ^ 24 * B0 + 2 ^ 16 * B1 + 2 ^ 8 * B2 + B3 =
      B0 * 2 ^ 24 + (2 ^ 16 * B1 + 2 ^ 8 * B2 + B3) by ring,
    show (32 : Nat) = 8 + 24 from rfl,
    bitsOfNat_mul_add 8 24 B0 _ (by omega)]

theorem drop_one (fifo : List Nat) (idx : Nat) (h : idx < fifo.length) :
    fifo.drop idx = [fifo.getD idx 0] ++ fifo.drop (idx + 1) := by
  rw [List.drop_eq_getElem_cons h, getD_eq _ _ h]
  rfl

theorem drop_two (fifo : List Nat) (idx : Nat) (h : idx + 1 < fifo.length) :
    fifo.drop idx =
      [fifo.getD idx 0, fifo.getD (idx + 1) 0] ++ fifo.drop (idx + 2) := by
  rw [drop_one fifo idx (by omega), drop_one fifo (idx + 1) h]
  rfl

theorem drop_three (fifo : List Nat) (idx : Nat) (h : idx + 2 < fifo.length) :
    fifo.drop idx =
      [fifo.getD idx 0, fifo.getD (idx + 1) 0, fifo.getD (idx + 2) 0] ++
        fifo.drop (idx + 3) := by
  rw [drop_two fifo idx (by omega), drop_one fifo (idx + 2) h]
  rfl

theorem drop_four (fifo : List Nat) (idx : Nat) (h : idx + 3 < fifo.length) :
    fifo.drop idx =
      [fifo.getD idx 0, fifo.getD (idx + 1) 0, fifo.getD (idx + 2) 0,
        fifo.getD (idx + 3) 0] ++ fifo.drop (idx + 4) := by
  rw [drop_three fifo idx (by omega), drop_one fifo (idx + 3) h]
  rfl

/-- Central correctness of `TComInputBitstream::read`: on a well-formed
reader holding at least `n ≤ 32` unread bits, `read` succeeds, returns the
value of the first `n` unread bits, and consumes exactly those bits. -/
theorem read_spec (r : TComInputBitstream) (n : Nat) (hr : r.WF) (hn : n ≤ 32)
    (hlen : n ≤ (rBits r).length) :
    ∃ r', TComInputBitstream.read r n =
        some (bitsVal ((rBits r).take n), r') ∧ r'.WF ∧
        rBits r' = (rBits r).drop n ∧ r'.m_fifo = r.m_fifo := by
  obtain ⟨fifo, idx, held, nhb⟩ := r
  obtain ⟨hnhb, hheld, hidx, hfifo⟩ := hr
  simp only at hnhb hheld hidx hfifo
  have hlen' : n ≤ nhb + 8 * (fifo.length - idx) := by simpa using hlen
  by_cases hb1 : n ≤ nhb
  · refine ⟨⟨fifo, idx, held, nhb - n⟩, ?_,
      ⟨by show nhb - n ≤ 7; omega, hheld, hidx, hfifo⟩, ?_, rfl⟩
    · have hsplit : bitsOfNat nhb held =
          bitsOfNat n (held / 2 ^ (nhb - n)) ++ bitsOfNat (nhb - n) held := by
        conv_lhs => rw [show nhb = n + (nhb - n) by omega, bitsOfNat_split]
      have hval : (held >>> (nhb - n)) &&&
          ((2 ^ 32 - 1) ^^^ ((0xff <<< n) % 2 ^ 32)) =
          bitsVal ((rBits ⟨fifo, idx, held, nhb⟩).take n) := by
        have hx : held >>> (nhb - n) < 2 ^ (n + 8) := by
          refine lt_of_le_of_lt ?_ (lt_of_lt_of_le hheld ?_)
          · rw [Nat.shiftRight_eq_div_pow]
            exact Nat.div_le_self _ _
          · calc (256 : Nat) = 2 ^ 8 := by norm_num
              _ ≤ 2 ^ (n + 8) := by apply Nat.pow_le_pow_right <;> omega
        rw [land_comp_mask _ n hx (by omega)]
        simp only [rBits]
        rw [hsplit, List.append_assoc, List.take_left' (bitsOfNat_length _ _),
          bitsVal_bitsOfNat, Nat.shiftRight_eq_div_pow]
      simp only [TComInputBitstream.read]
      rw [if_pos hn, if_pos hb1, hval]
    · simp only [rBits]
      have hsplit : bitsOfNat nhb held =
          bitsOfNat n (held / 2 ^ (nhb - n)) ++ bitsOfNat (nhb - n) held := by
        conv_lhs => rw [show nhb = n + (nhb - n) by omega, bitsOfNat_split]
      conv_rhs => rw [hsplit, List.append_assoc,
        List.drop_left' (bitsOfNat_length _ _)]
  · push_neg at hb1
    have hK : (n - nhb - 1) >>> 3 = (n - nhb - 1) / 8 := by
      rw [Nat.shiftRight_eq_div_pow]
    rcases (show (n - nhb - 1) >>> 3 = 0 ∨ (n - nhb - 1) >>> 3 = 1 ∨
        (n - nhb - 1) >>> 3 = 2 ∨ (n - nhb - 1) >>> 3 = 3 by
      rw [hK]; omega) with hkv | hkv | hkv | hkv
    · have hkd : (n - nhb - 1) / 8 = 0 := by rw [← hK, hkv]
      have hbd : idx < fifo.length := by omega
      have hdrop := drop_one fifo idx hbd
      have hB0 := getD_lt fifo idx hbd hfifo
      obtain ⟨hval, hdrops⟩ := read_finish fifo idx held nhb n 1
        (fifo.getD idx 0) [fifo.getD idx 0] hnhb hb1 hn hheld (by omega)
        hdrop (bytesBits_one _) (by omega)
      refine ⟨⟨fifo, idx + 1, (fifo.getD idx 0) % 256, (32 - (n - nhb)) % 8⟩,
        ?_, ⟨by show (32 - (n - nhb)) % 8 ≤ 7; omega,
          Nat.mod_lt _ (by norm_num), by show idx + 1 ≤ fifo.length; omega,
          hfifo⟩, ?_, rfl⟩
      · simp only [TComInputBitstream.read]
        rw [if_pos hn, if_neg (by omega : ¬ n ≤ nhb)]
        simp only [hkv]
        rw [if_pos (show idx + 0 < fifo.length by omega), hval]
        simp only [rBits]
      · simp only [rBits]
        exact hdrops
    · have hkd : (n - nhb - 1) / 8 = 1 := by rw [← hK, hkv]
      have hbd : idx + 1 < fifo.length := by omega
      have hdrop := drop_two fifo idx hbd
      have hB0 := getD_lt fifo idx (by omega) hfifo
      have hB1 := getD_lt fifo (idx + 1) hbd hfifo
      have hor := or_word2 (fifo.getD idx 0) (fifo.getD (idx + 1) 0) hB1
      obtain ⟨hval, hdrops⟩ := read_finish fifo idx held nhb n 2
        (2 ^ 8 * fifo.getD idx 0 + fifo.getD (idx + 1) 0)
        [fifo.getD idx 0, fifo.getD (idx + 1) 0] hnhb hb1 hn hheld (by omega)
        hdrop (bytesBits_two _ _ hB1) (by omega)
      refine ⟨⟨fifo, idx + 2,
        (2 ^ 8 * fifo.getD idx 0 + fifo.getD (idx + 1) 0) % 256,
        (32 - (n - nhb)) % 8⟩,
        ?_, ⟨by show (32 - (n - nhb)) % 8 ≤ 7; omega,
          Nat.mod_lt _ (by norm_num), by show idx + 2 ≤ fifo.length; omega,
          hfifo⟩, ?_, rfl⟩
      · simp only [TComInputBitstream.read]
        rw [if_pos hn, if_neg (by omega : ¬ n ≤ nhb)]
        simp only [hkv]
        rw [if_pos (show idx + 1 < fifo.length by omega), hor, hval]
        simp only [rBits]
      · simp only [rBits]
        exact hdrops
    · have hkd : (n - nhb - 1) / 8 = 2 := by rw [← hK, hkv]
      have hbd : idx + 2 < fifo.length := by omega
      have hdrop := drop_three fifo idx hbd
      have hB0 := getD_lt fifo idx (by omega) hfifo
      have hB1 := getD_lt fifo (idx + 1) (by omega) hfifo
      have hB2 := getD_lt fifo (idx + 2) hbd hfifo
      have hor := or_word3 (fifo.getD idx 0) (fifo.getD (idx + 1) 0)
        (fifo.getD (idx + 2) 0) hB1 hB2
      obtain ⟨hval, hdrops⟩ := read_finish fifo idx held nhb n 3
        (2 ^ 16 * fifo.getD idx 0 + 2 ^ 8 * fifo.getD (idx + 1) 0 +
          fifo.getD (idx + 2) 0)
        [fifo.getD idx 0, fifo.getD (idx + 1) 0, fifo.getD (idx + 2) 0]
        hnhb hb1 hn hheld (by omega) hdrop (bytesBits_three _ _ _ hB1 hB2)
        (by omega)
      refine ⟨⟨fifo, idx + 3,
        (2 ^ 16 * fifo.getD idx 0 + 2 ^ 8 * fifo.getD (idx + 1) 0 +
          fifo.getD (idx + 2) 0) % 256,
        (32 - (n - nhb)) % 8⟩,
        ?_, ⟨by show (32 - (n - nhb)) % 8 ≤ 7; omega,
          Nat.mod_lt _ (by norm_num), by show idx + 3 ≤ fifo.length; omega,
          hfifo⟩, ?_, rfl⟩
      · simp only [TComInputBitstream.read]
        rw [if_pos hn, if_neg (by omega : ¬ n ≤ nhb)]
        simp only [hkv]
        rw [if_pos (show idx + 2 < fifo.length by omega), hor, hval]
        simp only [rBits]
      · simp only [rBits]
        exact hdrops
    · have hkd : (n - nhb - 1) / 8 = 3 := by rw [← hK, hkv]
      have hbd : idx + 3 < fifo.length := by omega
      have hdrop := drop_four fifo idx hbd
      have hB0 := getD_lt fifo idx (by omega) hfifo
      have hB1 := getD_lt fifo (idx + 1) (by omega) hfifo
      have hB2 := getD_lt fifo (idx + 2) (by omega) hfifo
      have hB3 := getD_lt fifo (idx + 3) hbd hfifo
      have hor := or_word4 (fifo.getD idx 0) (fifo.getD (idx + 1) 0)
        (fifo.getD (idx + 2) 0) (fifo.getD (idx + 3) 0) hB1 hB2 hB3
      obtain ⟨hval, hdrops⟩ := read_finish fifo idx held nhb n 4
        (2 ^ 24 * fifo.getD idx 0 + 2 ^ 16 * fifo.getD (idx + 1) 0 +
          2 ^ 8 * fifo.getD (idx + 2) 0 + fifo.getD (idx + 3) 0)
        [fifo.getD idx 0, fifo.getD (idx + 1) 0, fifo.getD (idx + 2) 0,
          fifo.getD (idx + 3) 0]
        hnhb hb1 hn hheld (by omega) hdrop
        (bytesBits_four _ _ _ _ hB1 hB2 hB3) (by omega)
      refine ⟨⟨fifo, idx + 4,
        (2 ^ 24 * fifo.getD idx 0 + 2 ^ 16 * fifo.getD (idx + 1) 0 +
          2 ^ 8 * fifo.getD (idx + 2) 0 + fifo.getD (idx + 3) 0) % 256,
        (32 - (n - nhb)) % 8⟩,
        ?_, ⟨by show (32 - (n - nhb)) % 8 ≤ 7; omega,
          Nat.mod_lt _ (by norm_num), by show idx + 4 ≤ fifo.length; omega,
          hfifo⟩, ?_, rfl⟩
      · simp only [TComInputBitstream.read]
        rw [if_pos hn, if_neg (by omega : ¬ n ≤ nhb)]
        simp only [hkv]
        rw [if_pos (show idx + 3 < fifo.length by omega), hor, hval]
        simp only [rBits]
      · simp only [rBits]
        exact hdrops

/-! ## Fold-level operations used by the round-trip law -/

/-- Write a sequence of (value, width) fields in order. -/
def writeAll (w : TComOutputBitstream) (ps : List (Nat × Nat)) :
    TComOutputBitstream :=
  ps.foldl (fun acc p => acc.write p.1 p.2) w

/-- Read a sequence of widths in order, collecting the values. -/
def readAll (r : TComInputBitstream) (ws : List Nat) :
    Option (List Nat × TComInputBitstream) :=
  match ws with
  | [] => some ([], r)
  | n :: rest =>
    match TComInputBitstream.read r n with
    | none => none
    | some (v, r1) =>
      match readAll r1 rest with
      | none => none
      | some (vs, r2) => some (v :: vs, r2)

/-- The abstract bit sequence denoted by a list of (value, width) fields. -/
def pairsBits (ps : List (Nat × Nat)) : List Bool :=
  (ps.map (fun p => bitsOfNat p.2 p.1)).flatten

@[simp] theorem pairsBits_nil : pairsBits [] = [] := rfl

theorem pairsBits_cons (p : Nat × Nat) (ps : List (Nat × Nat)) :
    pairsBits (p :: ps) = bitsOfNat p.2 p.1 ++ pairsBits ps := by
  simp [pairsBits]

theorem writeAll_spec (ps : List (Nat × Nat)) (w : TComOutputBitstream)
    (hw : w.WF) (hps : ∀ p ∈ ps, p.2 ≤ 32 ∧ p.1 < 2 ^ p.2) :
    (writeAll w ps).WF ∧ wBits (writeAll w ps) = wBits w ++ pairsBits ps := by
  induction ps generalizing w with
  | nil => simpa [writeAll] using hw
  | cons p ps ih =>
    obtain ⟨h1, h2⟩ := hps p (List.mem_cons_self p ps)
    obtain ⟨hw1, hw2⟩ := write_spec w p.1 p.2 hw h1 h2
    obtain ⟨ih1, ih2⟩ := ih (w.write p.1 p.2) hw1
      (fun q hq => hps q (List.mem_cons_of_mem _ hq))
    refine ⟨ih1, ?_⟩
    rw [show writeAll w (p :: ps) = writeAll (w.write p.1 p.2) ps from rfl,
      ih2, hw2, pairsBits_cons, List.append_assoc]

theorem readAll_spec (ps : List (Nat × Nat)) (tail : List Bool)
    (r : TComInputBitstream) (hr : r.WF)
    (hps : ∀ p ∈ ps, p.2 ≤ 32 ∧ p.1 < 2 ^ p.2)
    (hbits : rBits r = pairsBits ps ++ tail) :
    ∃ r', readAll r (ps.map Prod.snd) = some (ps.map Prod.fst, r') ∧
      r'.WF ∧ rBits r' = tail := by
  induction ps generalizing r with
  | nil => exact ⟨r, rfl, hr, by simpa using hbits⟩
  | cons p ps ih =>
    obtain ⟨h1, h2⟩ := hps p (List.mem_cons_self p ps)
    have hlen : p.2 ≤ (rBits r).length := by
      rw [hbits, pairsBits_cons]
      simp
    obtain ⟨r1, hread, hr1, hdrop, _⟩ := read_spec r p.2 hr h1 hlen
    have hval : bitsVal ((rBits r).take p.2) = p.1 := by
      rw [hbits, pairsBits_cons, List.append_assoc,
        List.take_left' (bitsOfNat_length _ _), bitsVal_bitsOfNat,
        Nat.mod_eq_of_lt h2]
    have hbits1 : rBits r1 = pairsBits ps ++ tail := by
      rw [hdrop, hbits, pairsBits_cons, List.append_assoc,
        List.drop_left' (bitsOfNat_length _ _)]
    obtain ⟨r', hrest, hr', htail⟩ := ih r1 hr1
      (fun q hq => hps q (List.mem_cons_of_mem _ hq)) hbits1
    refine ⟨r', ?_, hr', htail⟩
    rw [List.map_cons]
    simp only [readAll, hread, hrest, hval, List.map_cons]

/-! ## Operation sequences for the bit-count conservation invariant -/

/-- One mutating call on a writer. -/
inductive WriterOp where
  | write (uiBits uiNumberOfBits : Nat)
  | alignZero
  | alignOne
deriving DecidableEq, Repr

/-- Apply one operation. -/
def applyOp (w : TComOutputBitstream) : WriterOp → TComOutputBitstream
  | .write v n => w.write v n
  | .alignZero => w.writeAlignZero
  | .alignOne => w.writeAlignOne

/-- Number of bits an operation appends to the stream, counting the padding
an alignment operation inserts from the state it runs in. -/
def opBitCount (w : TComOutputBitstream) : WriterOp → Nat
  | .write _ n => n
  | .alignZero => (8 - w.m_num_held_bits) % 8
  | .alignOne => (8 - w.m_num_held_bits) % 8

/-- Run a sequence of operations from a given writer state. -/
def runOps (w : TComOutputBitstream) (ops : List WriterOp) :
    TComOutputBitstream :=
  ops.foldl applyOp w

/-- Total number of bits appended by a sequence, padding included. -/
def totalBits (w : TComOutputBitstream) : List WriterOp → Nat
  | [] => 0
  | op :: ops => opBitCount w op + totalBits (applyOp w op) ops

/-- The argument contract of each operation (spec §4.1). -/
def validOp : WriterOp → Prop
  | .write v n => n ≤ 32 ∧ v < 2 ^ n
  | .alignZero => True
  | .alignOne => True

instance (op : WriterOp) : Decidable (validOp op) := by
  cases op <;> unfold validOp <;> infer_instance

theorem applyOp_spec (w : TComOutputBitstream) (op : WriterOp) (hw : w.WF)
    (hop : validOp op) :
    (applyOp w op).WF ∧
      (wBits (applyOp w op)).length = (wBits w).length + opBitCount w op := by
  cases op with
  | write v n =>
    obtain ⟨h1, h2⟩ := hop
    obtain ⟨hw1, hw2⟩ := write_spec w v n hw h1 h2
    refine ⟨hw1, ?_⟩
    rw [show applyOp w (.write v n) = w.write v n from rfl, hw2]
    simp [opBitCount]
  | alignZero =>
    obtain ⟨hz1, hz2, hz3⟩ := writeAlignZero_spec w hw
    refine ⟨hz1, ?_⟩
    rw [show applyOp w .alignZero = w.writeAlignZero from rfl,
      wBits_of_aligned _ hz2, hz3]
    simp [opBitCount]
  | alignOne =>
    obtain ⟨hz1, hz2, hz3⟩ := writeAlignOne_spec w hw
    refine ⟨hz1, ?_⟩
    rw [show applyOp w .alignOne = w.writeAlignOne from rfl,
      wBits_of_aligned _ hz2, hz3]
    simp [opBitCount]

theorem runOps_spec (ops : List WriterOp) (w : TComOutputBitstream)
    (hw : w.WF) (hops : ∀ op ∈ ops, validOp op) :
    (runOps w ops).WF ∧
      (wBits (runOps w ops)).length = (wBits w).length + totalBits w ops := by
  induction ops generalizing w with
  | nil => simpa [runOps, totalBits] using hw
  | cons op ops ih =>
    obtain ⟨h1, h2⟩ := applyOp_spec w op hw (hops op (List.mem_cons_self op ops))
    obtain ⟨ih1, ih2⟩ := ih (applyOp w op) h1
      (fun q hq => hops q (List.mem_cons_of_mem _ hq))
    refine ⟨ih1, ?_⟩
    rw [show runOps w (op :: ops) = runOps (applyOp w op) ops from rfl, ih2, h2,
      totalBits]
    omega

/-! ## pseudoRead helper lemmas -/

/-- A direct `read` past the end of the buffer hits the bounds assertion. -/
theorem read_overrun (r : TComInputBitstream) (n : Nat)
    (hidx : r.m_fifo_idx ≤ r.m_fifo.length)
    (h : TComInputBitstream.getNumBitsLeft r < n) :
    TComInputBitstream.read r n = none := by
  obtain ⟨fifo, idx, held, nhb⟩ := r
  simp only [TComInputBitstream.getNumBitsLeft] at h
  simp only at hidx
  simp only [TComInputBitstream.read]
  by_cases h32 : n ≤ 32
  · rw [if_pos h32, if_neg (by omega : ¬ n ≤ nhb),
      if_neg (show ¬ idx + (n - nhb - 1) >>> 3 < fifo.length by
        rw [Nat.shiftRight_eq_div_pow, show (2 : Nat) ^ 3 = 8 by norm_num]
        omega)]
  · rw [if_neg h32]

/-- `pseudoRead` always succeeds on a well-formed reader with `n ≤ 32`, fully
restores the reader state, and returns the next `min n bitsLeft` unread bits
left-justified to width `n`. -/
theorem pseudoRead_run (r : TComInputBitstream) (n : Nat) (hr : r.WF)
    (hn : n ≤ 32) :
    TComInputBitstream.pseudoRead r n =
      some ((bitsVal ((rBits r).take
            (min n (TComInputBitstream.getNumBitsLeft r))) <<<
          (n - min n (TComInputBitstream.getNumBitsLeft r))) % 2 ^ 32, r) := by
  obtain ⟨fifo, idx, held, nhb⟩ := r
  have hm32 : min n (TComInputBitstream.getNumBitsLeft ⟨fifo, idx, held, nhb⟩)
      ≤ 32 := le_trans (min_le_left _ _) hn
  have hmlen : min n (TComInputBitstream.getNumBitsLeft ⟨fifo, idx, held, nhb⟩)
      ≤ (rBits ⟨fifo, idx, held, nhb⟩).length := by
    rw [rBits_length_eq_getNumBitsLeft]
    exact min_le_right _ _
  obtain ⟨r1, hread, _, _, hfifo⟩ := read_spec _ _ hr hm32 hmlen
  simp only [TComInputBitstream.pseudoRead, hread, hfifo]

/-! ## The claims -/

/-- C1: Round-trip law: for every finite sequence of (value, width) pairs
with each width in [1,32] and each value confined to its low `width` bits,
writing them in order with `TComOutputBitstream::write` starting from an
empty writer, then calling `writeAlignZero`, then reading the same widths in
the same order with `TComInputBitstream::read` over the resulting byte
buffer (reader starting at cursor 0) returns exactly the original values. -/
theorem C1_round_trip (ps : List (Nat × Nat))
    (hps : ∀ p ∈ ps, 1 ≤ p.2 ∧ p.2 ≤ 32 ∧ p.1 < 2 ^ p.2) :
    ∃ r', readAll
        (TComInputBitstream.construct
          ((writeAll TComOutputBitstream.construct ps).writeAlignZero).m_fifo)
        (ps.map Prod.snd) = some (ps.map Prod.fst, r') := by
  have hps' : ∀ p ∈ ps, p.2 ≤ 32 ∧ p.1 < 2 ^ p.2 :=
    fun p hp => ⟨(hps p hp).2.1, (hps p hp).2.2⟩
  obtain ⟨hwf1, hbits1⟩ := writeAll_spec ps TComOutputBitstream.construct
    (by decide) hps'
  obtain ⟨hwf2, hnum2, hbytes2⟩ := writeAlignZero_spec _ hwf1
  have hr0 : (TComInputBitstream.construct
      ((writeAll TComOutputBitstream.construct ps).writeAlignZero).m_fifo).WF :=
    ⟨Nat.zero_le 7, by show (0 : Nat) < 256; norm_num, Nat.zero_le _,
      hwf2.2.2.2⟩
  have hrbits : rBits (TComInputBitstream.construct
      ((writeAll TComOutputBitstream.construct ps).writeAlignZero).m_fifo) =
      pairsBits ps ++
        bitsOfNat
          ((8 - (writeAll TComOutputBitstream.construct ps).m_num_held_bits) % 8)
          0 := by
    simp only [rBits, TComInputBitstream.construct, bitsOfNat_zero,
      List.nil_append, List.drop_zero]
    rw [hbytes2, hbits1]
    simp [wBits, TComOutputBitstream.construct, bytesBits]
  obtain ⟨r', hra, _, _⟩ := readAll_spec ps _ _ hr0 hps' hrbits
  exact ⟨r', hra⟩

/-- Witness for C1 at the concrete input `[(5, 3), (202, 8)]`. -/
theorem C1_round_trip_witness :
    ∃ r', readAll
        (TComInputBitstream.construct
          ((writeAll TComOutputBitstream.construct
            [(5, 3), (202, 8)]).writeAlignZero).m_fifo)
        ([(5, 3), (202, 8)].map Prod.snd) =
      some ([(5, 3), (202, 8)].map Prod.fst, r') :=
  C1_round_trip [(5, 3), (202, 8)] (by decide)

/-- C2 (counterexample): on a reader over an empty buffer, `pseudoRead 1`
succeeds (zero-padded) and leaves the state unchanged, but the direct
`read 1` performed afterwards hits the bounds assertion instead of returning
the same value — so the claim fails as stated for every reader state. -/
theorem C2_counterexample :
    TComInputBitstream.pseudoRead (TComInputBitstream.construct []) 1 =
        some (0, TComInputBitstream.construct []) ∧
      TComInputBitstream.read (TComInputBitstream.construct []) 1 = none := by
  decide

/-- C2 (amended): for every well-formed reader state and every `numBits` in
[0,32] that does not exceed the bits remaining, `pseudoRead` leaves the
observable reader state exactly as it was, and a `read` performed
immediately afterwards returns the same value `pseudoRead` returned and
leaves the reader exactly where a single `read` would have. -/
theorem C2_pseudoRead_lookahead (r : TComInputBitstream) (n : Nat)
    (hr : r.WF) (hn : n ≤ 32)
    (hleft : n ≤ TComInputBitstream.getNumBitsLeft r) :
    ∃ v r2, TComInputBitstream.pseudoRead r n = some (v, r) ∧
      TComInputBitstream.read r n = some (v, r2) := by
  have hmin : min n (TComInputBitstream.getNumBitsLeft r) = n :=
    min_eq_left hleft
  have hlen : n ≤ (rBits r).length := by
    rw [rBits_length_eq_getNumBitsLeft]
    exact hleft
  obtain ⟨r2, hread, _, _, _⟩ := read_spec r n hr hn hlen
  refine ⟨bitsVal ((rBits r).take n), r2, ?_, hread⟩
  have hv : bitsVal ((rBits r).take n) < 2 ^ 32 := by
    refine lt_of_lt_of_le (bitsVal_lt _) ?_
    rw [List.length_take]
    apply Nat.pow_le_pow_right <;> omega
  rw [pseudoRead_run r n hr hn, hmin, Nat.sub_self, Nat.shiftLeft_zero,
    Nat.mod_eq_of_lt hv]

/-- Witness for the amended C2 at a concrete reader over one byte. -/
theorem C2_pseudoRead_lookahead_witness :
    ∃ v r2, TComInputBitstream.pseudoRead
        (TComInputBitstream.construct [185]) 3 =
        some (v, TComInputBitstream.construct [185]) ∧
      TComInputBitstream.read (TComInputBitstream.construct [185]) 3 =
        some (v, r2) :=
  C2_pseudoRead_lookahead (TComInputBitstream.construct [185]) 3 (by decide)
    (by decide) (by decide)

/-- C3: Splice correctness: for byte-aligned writers `A` and `B` and
`p ≤ |A.buffer|`, `A.insertAt(B, p)` makes the buffer of `A` equal to
`A[0:p] ++ B[:] ++ A[p:]`. -/
theorem C3_insertAt_splice (a b : TComOutputBitstream) (p : Nat)
    (ha : TComOutputBitstream.getNumberOfWrittenBits a % 8 = 0)
    (hb : TComOutputBitstream.getNumberOfWrittenBits b % 8 = 0)
    (hp : p ≤ a.m_fifo.length) :
    ∃ a', TComOutputBitstream.insertAt a b p = some (a', b) ∧
      a'.m_fifo = a.m_fifo.take p ++ b.m_fifo ++ a.m_fifo.drop p := by
  refine ⟨{ a with
    m_fifo := a.m_fifo.take p ++ b.m_fifo ++ a.m_fifo.drop p }, ?_, rfl⟩
  simp only [TComOutputBitstream.insertAt]
  rw [if_pos hb]

/-- Witness for C3 at concrete aligned writers. -/
theorem C3_insertAt_splice_witness :
    ∃ a', TComOutputBitstream.insertAt ⟨[1, 2], 0, 0⟩ ⟨[9], 0, 0⟩ 1 =
        some (a', ⟨[9], 0, 0⟩) ∧
      a'.m_fifo = [1, 2].take 1 ++ [9] ++ [1, 2].drop 1 :=
  C3_insertAt_splice ⟨[1, 2], 0, 0⟩ ⟨[9], 0, 0⟩ 1 (by decide) (by decide)
    (by decide)

/-- C4: Bit-count conservation: running any sequence of `write` (with
`numBits ≤ 32` and confined values), `writeAlignZero` and `writeAlignOne`
calls from an empty writer, the total number of bits written including
alignment padding equals `8 * getByteStreamLength() + numHeldBits`, with
`numHeldBits` always in [0,7]; after a final align operation the total
equals `8 * byteStreamLength`. -/
theorem C4_bit_count (ops : List WriterOp) (hops : ∀ op ∈ ops, validOp op) :
    totalBits TComOutputBitstream.construct ops =
        8 * TComOutputBitstream.getByteStreamLength
            (runOps TComOutputBitstream.construct ops) +
          (runOps TComOutputBitstream.construct ops).m_num_held_bits ∧
      (runOps TComOutputBitstream.construct ops).m_num_held_bits ≤ 7 ∧
      ∀ pre op, ops = pre ++ [op] →
        op = WriterOp.alignZero ∨ op = WriterOp.alignOne →
        totalBits TComOutputBitstream.construct ops =
          8 * TComOutputBitstream.getByteStreamLength
            (runOps TComOutputBitstream.construct ops) := by
  obtain ⟨hwf, hlen⟩ := runOps_spec ops TComOutputBitstream.construct
    (by decide) hops
  have hlen0 : (wBits TComOutputBitstream.construct).length = 0 := rfl
  have hwblen := wBits_length (runOps TComOutputBitstream.construct ops)
  have hmain : totalBits TComOutputBitstream.construct ops =
      8 * (runOps TComOutputBitstream.construct ops).m_fifo.length +
        (runOps TComOutputBitstream.construct ops).m_num_held_bits := by
    omega
  refine ⟨hmain, hwf.1, ?_⟩
  rintro pre op rfl hop
  have hsplit : runOps TComOutputBitstream.construct (pre ++ [op]) =
      applyOp (runOps TComOutputBitstream.construct pre) op := by
    simp [runOps]
  have hpre : ∀ q ∈ pre, validOp q := fun q hq =>
    hops q (List.mem_append_left _ hq)
  obtain ⟨hwfp, _⟩ := runOps_spec pre TComOutputBitstream.construct
    (by decide) hpre
  have hzero :
      (runOps TComOutputBitstream.construct (pre ++ [op])).m_num_held_bits
        = 0 := by
    rw [hsplit]
    rcases hop with rfl | rfl
    · exact writeAlignZero_num_held _
    · exact writeAlignOne_num_held _ hwfp.1
  rw [hmain, hzero]
  simp [TComOutputBitstream.getByteStreamLength]

/-- Witness for C4 at the concrete operation sequence of the worked
example. -/
theorem C4_bit_count_witness :
    totalBits TComOutputBitstream.construct
        [WriterOp.write 5 3, WriterOp.write 202 8, WriterOp.alignZero] =
        8 * TComOutputBitstream.getByteStreamLength
            (runOps TComOutputBitstream.construct
              [WriterOp.write 5 3, WriterOp.write 202 8, WriterOp.alignZero]) +
          (runOps TComOutputBitstream.construct
            [WriterOp.write 5 3, WriterOp.write 202 8,
              WriterOp.alignZero]).m_num_held_bits ∧
      (runOps TComOutputBitstream.construct
        [WriterOp.write 5 3, WriterOp.write 202 8,
          WriterOp.alignZero]).m_num_held_bits ≤ 7 ∧
      ∀ pre op,
        [WriterOp.write 5 3, WriterOp.write 202 8, WriterOp.alignZero] =
          pre ++ [op] →
        op = WriterOp.alignZero ∨ op = WriterOp.alignOne →
        totalBits TComOutputBitstream.construct
            [WriterOp.write 5 3, WriterOp.write 202 8, WriterOp.alignZero] =
          8 * TComOutputBitstream.getByteStreamLength
            (runOps TComOutputBitstream.construct
              [WriterOp.write 5 3, WriterOp.write 202 8,
                WriterOp.alignZero]) :=
  C4_bit_count [WriterOp.write 5 3, WriterOp.write 202 8, WriterOp.alignZero]
    (by decide)

/-- C5: Graceful lookahead at end of buffer: on a well-formed reader and a
requested width in [0,32], `pseudoRead` reads only the bits that remain,
left-shifts the result to the requested width so that bits past the end come
back as zeros, never faults, and restores the state — whereas a direct
`read` past the end hits its bounds assertion. -/
theorem C5_pseudoRead_graceful (r : TComInputBitstream) (n : Nat)
    (hr : r.WF) (hn : n ≤ 32) :
    ∃ v, TComInputBitstream.pseudoRead r n = some (v, r) ∧
      v % 2 ^ (n - TComInputBitstream.getNumBitsLeft r) = 0 ∧
      (TComInputBitstream.getNumBitsLeft r < n →
        TComInputBitstream.read r n = none) := by
  refine ⟨_, pseudoRead_run r n hr hn, ?_,
    fun hlt => read_overrun r n hr.2.2.1 hlt⟩
  rcases le_or_lt n (TComInputBitstream.getNumBitsLeft r) with hle | hlt
  · rw [Nat.sub_eq_zero_of_le hle, pow_zero, Nat.mod_one]
  · have hmin : min n (TComInputBitstream.getNumBitsLeft r) =
        TComInputBitstream.getNumBitsLeft r := min_eq_right (le_of_lt hlt)
    rw [hmin]
    have hvlt : bitsVal
        ((rBits r).take (TComInputBitstream.getNumBitsLeft r)) <
        2 ^ TComInputBitstream.getNumBitsLeft r := by
      refine lt_of_lt_of_le (bitsVal_lt _) ?_
      rw [List.length_take, rBits_length_eq_getNumBitsLeft]
      simp
    have hsh : (bitsVal
          ((rBits r).take (TComInputBitstream.getNumBitsLeft r)) <<<
        (n - TComInputBitstream.getNumBitsLeft r)) % 2 ^ 32 =
        bitsVal ((rBits r).take (TComInputBitstream.getNumBitsLeft r)) *
          2 ^ (n - TComInputBitstream.getNumBitsLeft r) := by
      rw [Nat.shiftLeft_eq, Nat.mod_eq_of_lt]
      calc bitsVal ((rBits r).take (TComInputBitstream.getNumBitsLeft r)) *
            2 ^ (n - TComInputBitstream.getNumBitsLeft r) <
          2 ^ TComInputBitstream.getNumBitsLeft r *
            2 ^ (n - TComInputBitstream.getNumBitsLeft r) :=
            (Nat.mul_lt_mul_right (Nat.two_pow_pos _)).mpr hvlt
        _ = 2 ^ n := by rw [← pow_add]; congr 1; omega
        _ ≤ 2 ^ 32 := by apply Nat.pow_le_pow_right <;> omega
    rw [hsh]
    exact Nat.mul_mod_left _ _

/-- Witness for C5 at a one-byte reader asked for 12 bits (4 bits past the
end). -/
theorem C5_pseudoRead_graceful_witness :
    ∃ v, TComInputBitstream.pseudoRead (TComInputBitstream.construct [185])
        12 = some (v, TComInputBitstream.construct [185]) ∧
      v % 2 ^ (12 - TComInputBitstream.getNumBitsLeft
        (TComInputBitstream.construct [185])) = 0 ∧
      (TComInputBitstream.getNumBitsLeft
          (TComInputBitstream.construct [185]) < 12 →
        TComInputBitstream.read (TComInputBitstream.construct [185]) 12 =
          none) :=
  C5_pseudoRead_graceful (TComInputBitstream.construct [185]) 12 (by decide)
    (by decide)

/-- C6: Alignment idempotence: on any writer state of the data model
(`numHeldBits ∈ [0,7]`), calling `writeAlignZero` twice equals calling it
once, and likewise for `writeAlignOne`. -/
theorem C6_align_idempotent (w : TComOutputBitstream)
    (h : w.m_num_held_bits ≤ 7) :
    (w.writeAlignZero).writeAlignZero = w.writeAlignZero ∧
      (w.writeAlignOne).writeAlignOne = w.writeAlignOne := by
  constructor
  · exact writeAlignZero_of_aligned _ (writeAlignZero_num_held w)
  · exact writeAlignOne_of_aligned _ (writeAlignOne_num_held w h)

/-- Witness for C6 at a concrete writer with three held bits. -/
theorem C6_align_idempotent_witness :
    ((⟨[17], 160, 3⟩ : TComOutputBitstream).writeAlignZero).writeAlignZero =
        (⟨[17], 160, 3⟩ : TComOutputBitstream).writeAlignZero ∧
      ((⟨[17], 160, 3⟩ : TComOutputBitstream).writeAlignOne).writeAlignOne =
        (⟨[17], 160, 3⟩ : TComOutputBitstream).writeAlignOne :=
  C6_align_idempotent ⟨[17], 160, 3⟩ (by decide)

/-- C7: Read bounds safety: a `read` of `numBits ∈ [0,32]` on a reader whose
remaining bits cover the request succeeds (the bounds-assertion branch is
unreachable), advances the cursor by exactly the number of bytes loaded, and
stays within the buffer. -/
theorem C7_read_bounds (r : TComInputBitstream) (n : Nat) (hn : n ≤ 32)
    (hidx : r.m_fifo_idx ≤ r.m_fifo.length)
    (hpre : n ≤ r.m_num_held_bits + 8 * (r.m_fifo.length - r.m_fifo_idx)) :
    ∃ v r', TComInputBitstream.read r n = some (v, r') ∧
      r'.m_fifo_idx = r.m_fifo_idx +
        (if n ≤ r.m_num_held_bits then 0
          else (n - r.m_num_held_bits - 1) / 8 + 1) ∧
      r'.m_fifo_idx ≤ r.m_fifo.length := by
  obtain ⟨fifo, idx, held, nhb⟩ := r
  simp only at hidx hpre ⊢
  by_cases hb1 : n ≤ nhb
  · exact ⟨_, _,
      by simp only [TComInputBitstream.read]; rw [if_pos hn, if_pos hb1],
      by rw [if_pos hb1]; rfl,
      hidx⟩
  · have hK : (n - nhb - 1) >>> 3 = (n - nhb - 1) / 8 := by
      rw [Nat.shiftRight_eq_div_pow]
    rcases (show (n - nhb - 1) >>> 3 = 0 ∨ (n - nhb - 1) >>> 3 = 1 ∨
        (n - nhb - 1) >>> 3 = 2 ∨ (n - nhb - 1) >>> 3 = 3 by
      rw [hK]; omega) with hkv | hkv | hkv | hkv
    · have hkd : (n - nhb - 1) / 8 = 0 := by rw [← hK, hkv]
      exact ⟨_, _,
        by
          simp only [TComInputBitstream.read]
          rw [if_pos hn, if_neg hb1]
          simp only [hkv]
          rw [if_pos (show idx + 0 < fifo.length by omega)],
        by rw [if_neg hb1, hkd],
        by show idx + 1 ≤ fifo.length; omega⟩
    · have hkd : (n - nhb - 1) / 8 = 1 := by rw [← hK, hkv]
      exact ⟨_, _,
        by
          simp only [TComInputBitstream.read]
          rw [if_pos hn, if_neg hb1]
          simp only [hkv]
          rw [if_pos (show idx + 1 < fifo.length by omega)],
        by rw [if_neg hb1, hkd],
        by show idx + 2 ≤ fifo.length; omega⟩
    · have hkd : (n - nhb - 1) / 8 = 2 := by rw [← hK, hkv]
      exact ⟨_, _,
        by
          simp only [TComInputBitstream.read]
          rw [if_pos hn, if_neg hb1]
          simp only [hkv]
          rw [if_pos (show idx + 2 < fifo.length by omega)],
        by rw [if_neg hb1, hkd],
        by show idx + 3 ≤ fifo.length; omega⟩
    · have hkd : (n - nhb - 1) / 8 = 3 := by rw [← hK, hkv]
      exact ⟨_, _,
        by
          simp only [TComInputBitstream.read]
          rw [if_pos hn, if_neg hb1]
          simp only [hkv]
          rw [if_pos (show idx + 3 < fifo.length by omega)],
        by rw [if_neg hb1, hkd],
        by show idx + 4 ≤ fifo.length; omega⟩

/-- Witness for C7 at a two-byte reader asked for 11 bits. -/
theorem C7_read_bounds_witness :
    ∃ v r', TComInputBitstream.read
        (TComInputBitstream.construct [185, 64]) 11 = some (v, r') ∧
      r'.m_fifo_idx = (TComInputBitstream.construct [185, 64]).m_fifo_idx +
        (if 11 ≤ (TComInputBitstream.construct [185, 64]).m_num_held_bits
          then 0
          else (11 - (TComInputBitstream.construct
            [185, 64]).m_num_held_bits - 1) / 8 + 1) ∧
      r'.m_fifo_idx ≤ (TComInputBitstream.construct [185, 64]).m_fifo.length :=
  C7_read_bounds (TComInputBitstream.construct [185, 64]) 11 (by decide)
    (by decide) (by decide)

/-- C8: Concrete scenario: starting from an empty writer, `write(0b101, 3)`
then `write(0b11001010, 8)` then `writeAlignZero` produces exactly the
2-byte sequence `10111001 01000000`; reading 3 bits then 8 bits from a
reader over those two bytes returns `0b101` and `0b11001010` respectively,
leaving 5 unread zero-padding bits. -/
theorem C8_concrete_scenario :
    ((TComOutputBitstream.construct.write 0b101 3).write 0b11001010
        8).writeAlignZero.m_fifo = [0b10111001, 0b01000000] ∧
      TComInputBitstream.read
          (TComInputBitstream.construct [0b10111001, 0b01000000]) 3 =
        some (0b101, ⟨[0b10111001, 0b01000000], 1, 0b10111001, 5⟩) ∧
      TComInputBitstream.read
          (⟨[0b10111001, 0b01000000], 1, 0b10111001, 5⟩ :
            TComInputBitstream) 8 =
        some (0b11001010, ⟨[0b10111001, 0b01000000], 2, 0b01000000, 5⟩) ∧
      TComInputBitstream.getNumBitsLeft
          (⟨[0b10111001, 0b01000000], 2, 0b01000000, 5⟩ :
            TComInputBitstream) = 5 ∧
      rBits (⟨[0b10111001, 0b01000000], 2, 0b01000000, 5⟩ :
          TComInputBitstream) = List.replicate 5 false := by
  decide

/-- C9: Boundary scenario: starting from an empty writer, `write(1, 1)`
followed by `writeAlignOne()` produces exactly one byte, `11111111`, with no
held bits remaining. -/
theorem C9_boundary_scenario :
    (TComOutputBitstream.construct.write 1 1).writeAlignOne =
      ⟨[0b11111111], 0, 0⟩ := by
  decide

/-- C10: Frame property of `insertAt`: a completed `A.insertAt(B, p)` leaves
the source writer `B` completely unchanged, and leaves the `heldBits` and
`numHeldBits` of `A` unchanged — only the byte buffer of `A` is modified. -/
theorem C10_insertAt_frame (a b : TComOutputBitstream) (p : Nat)
    (hp : p ≤ a.m_fifo.length)
    (res : TComOutputBitstream × TComOutputBitstream)
    (h : TComOutputBitstream.insertAt a b p = some res) :
    res.2 = b ∧ res.1.m_held_bits = a.m_held_bits ∧
      res.1.m_num_held_bits = a.m_num_held_bits := by
  simp only [TComOutputBitstream.insertAt] at h
  by_cases hc : TComOutputBitstream.getNumberOfWrittenBits b % 8 = 0
  · rw [if_pos hc] at h
    injection h with h2
    subst h2
    exact ⟨rfl, rfl, rfl⟩
  · rw [if_neg hc] at h
    exact absurd h (by simp)

/-- Witness for C10 at concrete writers. -/
theorem C10_insertAt_frame_witness :
    ((⟨[1, 9, 2], 160, 3⟩, (⟨[9], 0, 0⟩ : TComOutputBitstream)) :
          TComOutputBitstream × TComOutputBitstream).2 =
        (⟨[9], 0, 0⟩ : TComOutputBitstream) ∧
      ((⟨[1, 9, 2], 160, 3⟩, (⟨[9], 0, 0⟩ : TComOutputBitstream)) :
          TComOutputBitstream × TComOutputBitstream).1.m_held_bits =
        (⟨[1, 2], 160, 3⟩ : TComOutputBitstream).m_held_bits ∧
      ((⟨[1, 9, 2], 160, 3⟩, (⟨[9], 0, 0⟩ : TComOutputBitstream)) :
          TComOutputBitstream × TComOutputBitstream).1.m_num_held_bits =
        (⟨[1, 2], 160, 3⟩ : TComOutputBitstream).m_num_held_bits :=
  C10_insertAt_frame ⟨[1, 2], 160, 3⟩ ⟨[9], 0, 0⟩ 1 (by decide)
    (⟨[1, 9, 2], 160, 3⟩, ⟨[9], 0, 0⟩) (by decide)
